import Mathlib

/-!
Verification of the feature-graph core of the `hackerman` workspace tool.

The definitions below are a shallow embedding of `src/feat_graph.rs` and
`src/toml.rs`.  Rust string slices become `String`, `Vec`/`BTreeMap` become
lists (the `BTreeMap` for per-node platform sets is kept sorted by key, so
that iterating the list matches the ascending-key iteration of `BTreeMap`),
and fallible code returns `Except String`.  Panics and potential
non-termination are represented by explicit result constructors.
-/

namespace Hackerman

/-! ## Name comparison and declared-dependency lookup (feat_graph.rs, name_cmp / find_dep_by_name) -/

/-- Embedding of `name_cmp` from `feat_graph.rs`, working on the character
lists of the two strings.  Rust `a.chars().zip(b.chars())` truncates to the
shorter string, and `to_ascii_lowercase` only folds ASCII letters, exactly
like `Char.toLower`. -/
def name_cmp_chars (a b : List Char) : Bool :=
  (a.zip b).all (fun p => p.1.toLower == p.2.toLower || (p.1 == '-' && p.2 == '_'))

/-- `name_cmp` on strings. -/
def name_cmp (a b : String) : Bool :=
  name_cmp_chars a.data b.data

/-- Embedding of `cargo_metadata::Dependency`, restricted to the fields the
source reads: `name`, `optional`, `features`, `rename`. -/
structure Dependency where
  name : String
  optional : Bool
  features : List String
  rename : Option String
deriving DecidableEq, Repr

/-- The manifest-declared dependency `d` matches target `name`: compare
against the rename when present, else against the declared name
(the `match d.rename` in `find_dep_by_name`). -/
def declMatches (d : Dependency) (name : String) : Bool :=
  match d.rename with
  | some r => name_cmp r name
  | none => name_cmp d.name name

/-- Embedding of `find_dep_by_name` from `feat_graph.rs`. -/
def find_dep_by_name (deps : List Dependency) (name : String) : Except String Dependency :=
  match deps.find? (fun d => declMatches d name) with
  | some d => Except.ok d
  | none => Except.error ("No dependency named " ++ name)

/-! ## Graph data model (feat_graph.rs) -/

/-- Embedding of `cargo_metadata::DepKindInfo`: the dependency kind
(normal, build, dev) together with an optional target-platform predicate
(kept as its textual form; the evaluator is external). -/
structure DepKindInfo where
  kind : String
  target : Option String
deriving DecidableEq, Repr

/-- Embedding of the `Link` edge weight. -/
structure Link where
  optional : Bool
  kinds : List DepKindInfo
deriving DecidableEq, Repr

/-- A feature identity: package index paired with an optional feature
name (`Fid` in the source; the metadata back-reference of `Pid` is dropped
because identity is by index only). -/
abbrev Fid := Nat × Option String

/-- Embedding of the `Feature` node weight. -/
inductive Feature where
  | Root : Feature
  | Workspace : Fid → Feature
  | External : Fid → Feature
deriving DecidableEq, Repr

instance : Inhabited Feature := ⟨Feature.Root⟩

/-- A directed edge of the feature graph: source node index, target node
index, `Link` weight. -/
structure Edge where
  src : Nat
  tgt : Nat
  link : Link
deriving DecidableEq, Repr

/-- The feature graph as seen by the optimizer: node weights in index
order plus the edge list (the petgraph arena, with node index = position). -/
structure G where
  nodes : List Feature
  edges : List Edge
deriving DecidableEq, Repr

instance : Inhabited G := ⟨⟨[], []⟩⟩

/-- Builder state corresponding to `FeatGraph2`.  The root node is always
node 0 (it is added first in `init`). -/
structure FeatGraph2 where
  workspace_members : List Nat
  nodes : List Feature
  edges : List Edge
  fids : List (Fid × Nat)
  library_renames : List (String × String)
deriving DecidableEq, Repr

instance : Inhabited FeatGraph2 := ⟨⟨[], [], [], [], []⟩⟩

/-- The graph part of the builder state. -/
def FeatGraph2.toG (fg : FeatGraph2) : G := ⟨fg.nodes, fg.edges⟩

/-- Lookup in the `fids` map. -/
def fidLookup (fg : FeatGraph2) (f : Fid) : Option Nat :=
  (fg.fids.find? (fun p => p.1 == f)).map (fun p => p.2)

/-- Embedding of `fid_index`: fetch the node for a feature identity,
creating it on first use and tagging it `Workspace` or `External` by
workspace membership of its package. -/
def fid_index (fg : FeatGraph2) (f : Fid) : FeatGraph2 × Nat :=
  match fg.fids.find? (fun p => p.1 == f) with
  | some p => (fg, p.2)
  | none =>
    let ix := fg.nodes.length
    let w := if fg.workspace_members.contains f.1 then Feature.Workspace f else Feature.External f
    ({ fg with nodes := fg.nodes ++ [w], fids := fg.fids ++ [(f, ix)] }, ix)

/-- Embedding of `cargo_metadata::Target` (name plus kind list). -/
structure RTarget where
  name : String
  kind : List String
deriving DecidableEq, Repr

/-- Embedding of `cargo_metadata::Package`, restricted to the fields the
source reads.  `features` is a `BTreeMap` in the source; example snapshots
below list its entries in ascending key order to match its iteration. -/
structure Package where
  id : String
  name : String
  features : List (String × List String)
  dependencies : List Dependency
  targets : List RTarget
deriving DecidableEq, Repr

/-- Embedding of `cargo_metadata::NodeDep` (one resolved dependency). -/
structure NodeDep where
  pkg : String
  name : String
  dep_kinds : List DepKindInfo
deriving DecidableEq, Repr

/-- Embedding of `cargo_metadata::Node` (the resolve entry of a package). -/
structure RNode where
  id : String
  deps : List NodeDep
deriving DecidableEq, Repr

/-- The metadata snapshot consumed by `init`.  The source unwraps
`meta.resolve` first (`MissingResolveData`); the resolve node list is kept
directly since every claim concerns snapshots that have one. -/
structure Metadata where
  packages : List Package
  workspace_members : List String
  resolveNodes : List RNode
deriving DecidableEq, Repr

/-- The `cache` lookup from raw package id to package index (`Pid`). -/
def pidOf (meta : Metadata) (id : String) : Option Nat :=
  meta.packages.findIdx? (fun p => p.id == id)

/-- The `library_renames` table built at the start of `init`: packages
whose library target name differs from the package name. -/
def libraryRenames (meta : Metadata) : List (String × String) :=
  meta.packages.filterMap (fun p =>
    match p.targets.find? (fun t => t.kind == ["lib"]) with
    | some t => if t.name ≠ p.name then some (p.id, p.name) else none
    | none => none)

/-- Lookup in a string-keyed association list (for `library_renames`). -/
def strLookup (m : List (String × String)) (k : String) : Option String :=
  (m.find? (fun p => p.1 == k)).map (fun p => p.2)

/-- Rust `str::split_once` on the character list. -/
def splitOnceAux : List Char → List Char → Option (List Char × List Char)
  | _, [] => none
  | acc, c :: rest =>
    if c = '/' then some (acc.reverse, rest) else splitOnceAux (c :: acc) rest

/-- Rust `str::split_once('/')`. -/
def splitOnce (s : String) : Option (String × String) :=
  (splitOnceAux [] s.data).map (fun p => (String.mk p.1, String.mk p.2))

/-- The unconditional link used for root edges and local-feature edges. -/
def rootLink : Link := ⟨false, []⟩

/-- The declared-dependency lookup of the resolved-dependency loop: try
the resolved name and, when the target package has a library rename, fall
back to it. -/
def lookupSpecified (package : Package) (renames : List (String × String))
    (rd : NodeDep) : Except String Dependency :=
  match strLookup renames rd.pkg with
  | some lname =>
    match find_dep_by_name package.dependencies rd.name with
    | Except.ok d => Except.ok d
    | Except.error _ => find_dep_by_name package.dependencies lname
  | none => find_dep_by_name package.dependencies rd.name

/-- One step of the resolved-dependency loop of `add_package`. -/
def addResolvedDep (meta : Metadata) (package : Package) (ix : Nat)
    (fg : FeatGraph2) (rd : NodeDep) : Except String FeatGraph2 :=
  match lookupSpecified package fg.library_renames rd with
  | Except.error e => Except.error e
  | Except.ok sd =>
    match pidOf meta rd.pkg with
    | none => Except.error "panic: resolved package id not in cache"
    | some dep_pid =>
      let link : Link := ⟨sd.optional, rd.dep_kinds⟩
      let fi := if link.optional then fid_index fg (ix, some rd.name)
                else fid_index fg (ix, none)
      let link_source := fi.2
      if sd.features.isEmpty then
        let ft := fid_index fi.1 (dep_pid, none)
        Except.ok { ft.1 with edges := ft.1.edges ++ [⟨link_source, ft.2, link⟩] }
      else
        Except.ok (sd.features.foldl (fun fg feat =>
          let ft := fid_index fg (dep_pid, some feat)
          { ft.1 with edges := ft.1.edges ++ [⟨link_source, ft.2, link⟩] }) fi.1)

/-- One requirement of a locally declared feature (the inner loop of the
local-features pass of `add_package`). -/
def addLocalDep (meta : Metadata) (package : Package) (rnode : RNode) (ix : Nat)
    (local_feat : String) (local_ix : Nat)
    (fg : FeatGraph2) (other : String) : Except String FeatGraph2 :=
  match splitOnce other with
  | some (other_name, other_feat) =>
    match find_dep_by_name package.dependencies other_name with
    | Except.error e => Except.error e
    | Except.ok dep_declaration =>
      match rnode.deps.find? (fun d => name_cmp other_name d.name) with
      | some dr =>
        match pidOf meta dr.pkg with
        | none => Except.error "panic: resolved package id not in cache"
        | some dep_pid =>
          let link : Link := ⟨dep_declaration.optional, dr.dep_kinds⟩
          let fl := fid_index fg (ix, some local_feat)
          let fo := fid_index fl.1 (dep_pid, some other_feat)
          Except.ok { fo.1 with edges := fo.1.edges ++ [⟨fl.2, fo.2, link⟩] }
      | none => Except.ok fg
  | none =>
    let fo := fid_index fg (ix, some other)
    Except.ok { fo.1 with edges := fo.1.edges ++ [⟨local_ix, fo.2, rootLink⟩] }

/-- One locally declared feature with its requirement list (the outer loop
of the local-features pass of `add_package`). -/
def addLocalFeature (meta : Metadata) (package : Package) (rnode : RNode) (ix base_ix : Nat)
    (fg : FeatGraph2) (pr : String × List String) : Except String FeatGraph2 :=
  let fl := fid_index fg (ix, some pr.1)
  let fg2 := { fl.1 with edges := fl.1.edges ++ [⟨fl.2, base_ix, rootLink⟩] }
  pr.2.foldlM (addLocalDep meta package rnode ix pr.1 fl.2) fg2

/-- Embedding of `add_package`.  The `assert_eq!(package.id, deps.id)`
panic is modelled as an error. -/
def add_package (meta : Metadata) (fg : FeatGraph2) (ix : Nat)
    (package : Package) (rnode : RNode) : Except String FeatGraph2 :=
  if package.id ≠ rnode.id then
    Except.error "panic: package list and resolve list are not index-aligned"
  else
    let fb := fid_index fg (ix, none)
    let base_ix := fb.2
    let fg2 :=
      if fb.1.workspace_members.contains ix then
        if (package.features.find? (fun p => p.1 == "default")).isSome then
          let fd := fid_index fb.1 (ix, some "default")
          { fd.1 with edges := fd.1.edges ++ [⟨0, fd.2, rootLink⟩] }
        else
          { fb.1 with edges := fb.1.edges ++ [⟨0, base_ix, rootLink⟩] }
      else fb.1
    match rnode.deps.foldlM (addResolvedDep meta package ix) fg2 with
    | Except.error e => Except.error e
    | Except.ok fg3 =>
      package.features.foldlM (addLocalFeature meta package rnode ix base_ix) fg3

/-- The graph-construction part of `init`: the root node followed by one
`add_package` call per (package, resolve node) pair in index order. -/
def buildGraph (meta : Metadata) : Except String FeatGraph2 :=
  let wsMembers := meta.workspace_members.filterMap (pidOf meta)
  let fg0 : FeatGraph2 := ⟨wsMembers, [Feature.Root], [], [], libraryRenames meta⟩
  ((meta.packages.zip meta.resolveNodes).enum).foldlM
    (fun fg p => add_package meta fg p.1 p.2.1 p.2.2) fg0

/-! ## Platform propagation (fill_in_platforms) -/

/-- The per-node platform map (`BTreeMap<NodeIndex, Vec<&str>>`), kept
sorted by key so that list order equals ascending-key iteration order. -/
abbrev PlatMap := List (Nat × List String)

/-- Map lookup. -/
def platLookup (m : PlatMap) (k : Nat) : Option (List String) :=
  (m.find? (fun p => p.1 == k)).map (fun p => p.2)

/-- Sorted insertion (the key is absent when this is called). -/
def sortedInsert (m : PlatMap) (k : Nat) (v : List String) : PlatMap :=
  match m with
  | [] => [(k, v)]
  | (k2, v2) :: rest =>
    if k < k2 then (k, v) :: (k2, v2) :: rest else (k2, v2) :: sortedInsert rest k v

/-- `BTreeMap::entry(..).or_insert_with(..)`: insert only when absent. -/
def insertIfAbsent (m : PlatMap) (k : Nat) (v : List String) : PlatMap :=
  if (platLookup m k).isSome then m else sortedInsert m k v

/-- The outgoing edges of node `s`.  petgraph iterates a node's outgoing
edges newest-first, hence the reverse of insertion order. -/
def outEdges (g : G) (s : Nat) : List Edge :=
  (g.edges.filter (fun e => e.src == s)).reverse

/-- One platform passes an edge when at least one of its (kind, predicate)
entries evaluates true (a missing predicate accepts every platform), or
the kinds sequence is empty.  `ev` is the external `target_spec::eval`
collaborator, modelled as a total boolean function from predicate text and
platform to Bool. -/
def edgeAccepts (ev : String → String → Bool) (l : Link) (p : String) : Bool :=
  l.kinds.any (fun k =>
    match k.target with
    | none => true
    | some t => ev t p) || l.kinds.isEmpty

/-- The traversal state of `fill_in_platforms`: the `to_visit` stack (head
is the top, matching `Vec::push`/`Vec::pop`) and the platform map. -/
structure FillSt where
  toVisit : List Nat
  plat : PlatMap
deriving DecidableEq, Repr

/-- Result of running `fill_in_platforms`.  The source loop has no fuel:
`outOfFuel` marks runs that did not finish within the given bound (the
loop diverges exactly when no bound suffices), and `panicked` models the
`unwrap` of the platform entry of a visited node. -/
inductive FillResult where
  | ok : PlatMap → FillResult
  | outOfFuel : FillSt → FillResult
  | panicked : FillResult
deriving DecidableEq, Repr

/-- Is the result an out-of-fuel marker? -/
def FillResult.isOutOfFuel : FillResult → Bool
  | FillResult.outOfFuel _ => true
  | _ => false

/-- Handling of one outgoing edge of the popped source: insert the
filtered platform set for the target if absent, and push the target. -/
def fillStepF (ev : String → String → Bool) (cur : List String)
    (acc : PlatMap × List Nat) (e : Edge) : PlatMap × List Nat :=
  (insertIfAbsent acc.1 e.tgt (cur.filter (fun p => edgeAccepts ev e.link p)),
   e.tgt :: acc.2)

/-- Processing one popped source: fold `fillStepF` over its outgoing
edges. -/
def fillVisit (ev : String → String → Bool) (g : G) (cur : List String)
    (plat : PlatMap) (stack : List Nat) (s : Nat) : PlatMap × List Nat :=
  (outEdges g s).foldl (fillStepF ev cur) (plat, stack)

/-- Embedding of the `fill_in_platforms` worklist loop.  Node 0 is the
root; its platform set is the requested platform list. -/
def runFill (ev : String → String → Bool) (g : G) (req : List String) :
    Nat → FillSt → FillResult
  | 0, st => FillResult.outOfFuel st
  | _fuel + 1, ⟨[], plat⟩ => FillResult.ok plat
  | fuel + 1, ⟨s :: rest, plat⟩ =>
    match (if s == 0 then some req else platLookup plat s) with
    | none => FillResult.panicked
    | some cur =>
      let acc := fillVisit ev g cur plat rest s
      runFill ev g req fuel ⟨acc.2, acc.1⟩

/-- The platform set the final map assigns to an edge source (the root
reads the requested list). -/
def platSrc (req : List String) (m : PlatMap) (s : Nat) : Option (List String) :=
  if s = 0 then some req else platLookup m s

/-! ## Graph optimization (trim passes, transitive reduction) -/

/-- Embedding of petgraph `Graph::remove_node`: removes the node and its
incident edges, then moves the LAST node into the freed index (so edges
that referenced the old last index are renumbered); out-of-range indices
are a no-op.  This swap-removal is the behaviour the optimizer passes
actually run against. -/
def removeNode (g : G) (i : Nat) : G :=
  if i < g.nodes.length then
    let last := g.nodes.length - 1
    let lastW := g.nodes.getD last Feature.Root
    { nodes := (g.nodes.set i lastW).dropLast,
      edges := (g.edges.filter (fun e => !(e.src == i) && !(e.tgt == i))).map
        (fun e => ⟨if e.src == last then i else e.src,
                   if e.tgt == last then i else e.tgt, e.link⟩) }
  else g

/-- Embedding of `trim_unused_platforms`: remove (in ascending key order,
matching `BTreeMap` iteration) every node whose computed platform set is
empty.  Nodes never reached by propagation have no map entry and are not
touched. -/
def trim_unused_platforms (g : G) (m : PlatMap) : G :=
  (m.filterMap (fun p => if p.2.isEmpty then some p.1 else none)).foldl removeNode g

/-- Is the node weight an `External` feature? -/
def isExternalW : Feature → Bool
  | Feature.External _ => true
  | _ => false

/-- The candidates of one `trim_unused_features` round: node indices (in
ascending order, matching `externals`) with no incoming edge whose weight
is `External`. -/
def externalsNoIncoming (g : G) : List Nat :=
  (List.range g.nodes.length).filter (fun i =>
    g.edges.all (fun e => !(e.tgt == i)) && isExternalW (g.nodes.getD i Feature.Root))

/-- One round of the `trim_unused_features` loop: collect the candidates,
then remove them one by one; the flag records whether the loop continues. -/
def trimRound (g : G) : G × Bool :=
  let tr := externalsNoIncoming g
  if tr.isEmpty then (g, false) else (tr.foldl removeNode g, true)

/-- The `trim_unused_features` loop, fueled; every continuing round
strictly shrinks the node count, so `nodes.length + 1` rounds always
reach the break. -/
def trimLoop : Nat → G → G
  | 0, g => g
  | fuel + 1, g =>
    let r := trimRound g
    if r.2 then trimLoop fuel r.1 else g

/-- Embedding of `trim_unused_features`. -/
def trim_unused_features (g : G) : G :=
  trimLoop (g.nodes.length + 1) g

/-- Reachability over an edge list (zero or more edges). -/
inductive ReachesE (E : List Edge) : Nat → Nat → Prop
  | refl (u : Nat) : ReachesE E u u
  | step (e : Edge) (he : e ∈ E) {v : Nat} (h : ReachesE E e.tgt v) : ReachesE E e.src v

/-- Bounded executable reachability: `reachB E fuel u v` is true when a
path of fewer than `fuel` edges links `u` to `v`. -/
def reachB (E : List Edge) : Nat → Nat → Nat → Bool
  | 0, _, _ => false
  | fuel + 1, u, v => u == v || E.any (fun e => e.src == u && reachB E fuel e.tgt v)

/-- Modelled from the spec: petgraph
`dag_to_toposorted_adjacency_list` / `dag_transitive_reduction_closure` /
`contains_edge` (third-party algorithms the pass delegates to) keep an
edge of a DAG exactly when no other path joins its endpoints; an edge is
dropped when some other edge out of the same source reaches the target. -/
def keepEdge (g : G) (e : Edge) : Bool :=
  !(g.edges.any (fun f =>
    f.src == e.src && !(f.tgt == e.tgt) && reachB g.edges (g.nodes.length + 1) f.tgt e.tgt))

/-- The edge-filtering core of `transitive_reduction` (`retain_edges` with
the petgraph reduction). -/
def transRedCore (g : G) : G :=
  ⟨g.nodes, g.edges.filter (keepEdge g)⟩

/-- Kahn-style acyclicity check standing in for petgraph `toposort`
succeeding: repeatedly strip a node with no incoming edge among the
remaining ones. -/
def kahnGo (E : List Edge) : Nat → List Nat → Bool
  | 0, rem => rem.isEmpty
  | fuel + 1, rem =>
    if rem.isEmpty then true
    else
      match rem.find? (fun i => !(E.any (fun e => e.tgt == i && rem.contains e.src))) with
      | none => false
      | some i => kahnGo E fuel (rem.erase i)

/-- Acyclicity of the embedded graph. -/
def acyclicCheck (g : G) : Bool :=
  kahnGo g.edges g.nodes.length (List.range g.nodes.length)

/-- Embedding of `transitive_reduction`: the `toposort(..).expect(..)`
panic on a cyclic graph is modelled as `none`. -/
def transitive_reduction (g : G) : Option G :=
  if acyclicCheck g then some (transRedCore g) else none

/-- Embedding of `optimize`: trim unused platforms, trim unused features,
transitive reduction. -/
def optimize (g : G) (m : PlatMap) : Option G :=
  transitive_reduction (trim_unused_features (trim_unused_platforms g m))

/-- A rank function witnessing acyclicity: strictly increasing along every
edge, with ranks of edge targets bounded by the node count. -/
def RankOK (g : G) (rank : Nat → Nat) : Prop :=
  ∀ e ∈ g.edges, rank e.src < rank e.tgt ∧ rank e.tgt ≤ g.nodes.length

/-- Builder-state monotonicity: edges only get appended and feature-id
lookups are never invalidated. -/
def EdgeFidMono (fg fg' : FeatGraph2) : Prop :=
  (∃ tl, fg'.edges = fg.edges ++ tl) ∧
    ∀ f n, fidLookup fg f = some n → fidLookup fg' f = some n

/-- Embedding of `init` up to the optimized graph: build, propagate
platforms (with the given fuel), optimize.  Build errors, the fill loop
never finishing, the fill `unwrap` panic and the toposort panic all yield
`none`.  (The trailing `dump` call is presentation-layer I/O and is not
modelled.) -/
def init (ev : String → String → Bool) (meta : Metadata) (platforms : List String)
    (fuel : Nat) : Option G :=
  match buildGraph meta with
  | Except.error _ => none
  | Except.ok fg =>
    match runFill ev fg.toG platforms fuel ⟨[0], []⟩ with
    | FillResult.ok m => optimize fg.toG m
    | _ => none

/-! ## Manifest rewriting (toml.rs, set_dependencies) -/

/-- A TOML item, restricted to the shapes `set_dependencies` handles:
booleans (the stash marker), strings (versions), string arrays (feature
lists) and tables (inline or regular; the distinction is rendering-only). -/
inductive TomlItem where
  | boolV : Bool → TomlItem
  | strV : String → TomlItem
  | arrV : List String → TomlItem
  | tableV : List (String × TomlItem) → TomlItem

/-- First-match key lookup in a table. -/
def getItem (es : List (String × TomlItem)) (k : String) : Option TomlItem :=
  (es.find? (fun p => p.1 == k)).map (fun p => p.2)

/-- `toml_edit` nested indexing: descend through tables, `none` when a key
is missing (`Item::None`). -/
def itemAt (es : List (String × TomlItem)) : List String → Option TomlItem
  | [] => none
  | k :: rest =>
    match rest with
    | [] => getItem es k
    | _ =>
      match getItem es k with
      | some (TomlItem.tableV t) => itemAt t rest
      | _ => none

/-- The table reached by descending through tables along `path`. -/
def getTable (es : List (String × TomlItem)) : List String → Option (List (String × TomlItem))
  | [] => some es
  | k :: rest =>
    match getItem es k with
    | some (TomlItem.tableV t) => getTable t rest
    | _ => none

/-- `toml_edit` `Table::insert`: replace the value of an existing key in
place, else append the new entry at the end. -/
def insertEntry (es : List (String × TomlItem)) (k : String) (v : TomlItem) :
    List (String × TomlItem) :=
  match es with
  | [] => [(k, v)]
  | (k2, v2) :: rest =>
    if k2 == k then (k, v) :: rest else (k2, v2) :: insertEntry rest k v

/-- Insertion step of the by-key sort standing in for `sort_values`. -/
def insEntry (e : String × TomlItem) : List (String × TomlItem) → List (String × TomlItem)
  | [] => [e]
  | x :: xs => if e.1 < x.1 then e :: x :: xs else x :: insEntry e xs

/-- `Table::sort_values`: sort the entries by key. -/
def sortEntries : List (String × TomlItem) → List (String × TomlItem)
  | [] => []
  | x :: xs => insEntry x (sortEntries xs)

/-- Embedding of `to_table`: walk `path`, creating missing tables, and
apply `f` to the table at the end of the path; a non-table item anywhere
on the path is the `Expected table` error. -/
def modifyTable : List (String × TomlItem) → List String →
    (List (String × TomlItem) → List (String × TomlItem)) →
    Except String (List (String × TomlItem))
  | es, [], f => Except.ok (f es)
  | es, k :: rest, f =>
    match getItem es k with
    | none => (modifyTable [] rest f).map (fun sub => insertEntry es k (TomlItem.tableV sub))
    | some (TomlItem.tableV t) =>
      (modifyTable t rest f).map (fun sub => insertEntry es k (TomlItem.tableV sub))
    | some _ => Except.error "Expected table"

/-- The patched dependency entry: pinned version plus feature list. -/
def depItem (ver : String) (feats : List String) : TomlItem :=
  TomlItem.tableV [("version", TomlItem.strV ver), ("features", TomlItem.arrV feats)]

/-- The package-graph metadata the routine consults: package id to
(name, version). -/
def lookupG (g : List (String × String × String)) (pid : String) : Option (String × String) :=
  (g.find? (fun p => p.1 == pid)).map (fun p => p.2)

/-- The namespaced stash location. -/
def stashPath : List String := ["package", "metadata", "hackerman", "dependencies"]

/-- The current top-level dependencies table; `to_table` fails when the
key holds a non-table item. -/
def curDeps (doc : List (String × TomlItem)) : Except String (List (String × TomlItem)) :=
  match getItem doc "dependencies" with
  | none => Except.ok []
  | some (TomlItem.tableV t) => Except.ok t
  | some _ => Except.error "Expected table"

/-- Resolving every patched package id against the package graph
(`g.metadata(package_id)?`): name and pinned version per entry. -/
def resolvePatch (g : List (String × String × String)) :
    List (String × List String) → Except String (List (String × String × List String))
  | [] => Except.ok []
  | pr :: rest =>
    match lookupG g pr.1 with
    | none => Except.error "package id not found in graph"
    | some nv =>
      match resolvePatch g rest with
      | Except.error e => Except.error e
      | Except.ok rs => Except.ok ((nv.1, nv.2, pr.2) :: rs)

/-- Inserting the patched entries into the dependencies table while
recording each entry name with the previous item (the `changes` vector:
`table.insert` returns the old value). -/
def applyPatches (cur : List (String × TomlItem))
    (resolved : List (String × String × List String)) :
    List (String × TomlItem) × List (String × Option TomlItem) :=
  resolved.foldl
    (fun acc t =>
      (insertEntry acc.1 t.1 (depItem t.2.1 t.2.2), acc.2 ++ [(t.1, getItem acc.1 t.1)]))
    (cur, [])

/-- Building the stash table from the recorded changes: the previous item,
or `false` as the marker for a previously-absent entry. -/
def stashOf (changes : List (String × Option TomlItem)) (st : List (String × TomlItem)) :
    List (String × TomlItem) :=
  sortEntries (changes.foldl
    (fun acc pr => insertEntry acc pr.1 (pr.2.getD (TomlItem.boolV false))) st)

/-- Embedding of `set_dependencies` from `toml.rs`.  The manifest is the
parsed document; returning `ok` models writing the new contents back,
returning `error` models bailing out with the file untouched (the source
only calls `fs::write` after every fallible step has succeeded). -/
def set_dependencies (doc : List (String × TomlItem))
    (g : List (String × String × String)) (patch : List (String × List String)) :
    Except String (List (String × TomlItem)) :=
  if (itemAt doc stashPath).isSome then
    Except.error "already contains changes, restore the original files before applying a new hack"
  else
    match curDeps doc with
    | Except.error e => Except.error e
    | Except.ok cur =>
      match resolvePatch g patch with
      | Except.error e => Except.error e
      | Except.ok resolved =>
        let folded := applyPatches cur resolved
        match modifyTable doc ["dependencies"] (fun _ => sortEntries folded.1) with
        | Except.error e => Except.error e
        | Except.ok doc1 => modifyTable doc1 stashPath (stashOf folded.2)

/-- The current top-level dependencies table of a document. -/
def depsTableOf (doc : List (String × TomlItem)) : List (String × TomlItem) :=
  match getItem doc "dependencies" with
  | some (TomlItem.tableV t) => t
  | _ => []

/-! ## Concrete snapshots used by the claims -/

/-- The external platform-predicate evaluator instantiated as exact string
match of predicate text against the platform. -/
def evEq : String → String → Bool := fun t p => t == p

/-- C3 snapshot: workspace member `p0` with two dependencies whose resolve
entries carry a target predicate that no requested platform satisfies. -/
def metaC3 : Metadata :=
  { packages := [
      ⟨"P0", "p0", [], [⟨"d1", false, [], none⟩, ⟨"d2", false, [], none⟩], []⟩,
      ⟨"P1", "p1", [], [], []⟩,
      ⟨"P2", "p2", [], [], []⟩],
    workspace_members := ["P0"],
    resolveNodes := [
      ⟨"P0", [⟨"P1", "d1", [⟨"normal", some "windows"⟩]⟩,
              ⟨"P2", "d2", [⟨"normal", some "windows"⟩]⟩]⟩,
      ⟨"P1", []⟩,
      ⟨"P2", []⟩] }

/-- The graph built from the C3 snapshot. -/
def fgC3 : FeatGraph2 := (buildGraph metaC3).toOption.getD default

/-- The platform map propagation computes on the C3 snapshot for the
requested platform list `[linux]`. -/
def mC3 : PlatMap :=
  match runFill evEq fgC3.toG ["linux"] 20 ⟨[0], []⟩ with
  | FillResult.ok m => m
  | _ => []

/-- C5 snapshot: feature `a` of workspace member `p` requires feature `b`
of dependency `q`, and feature `b` of `q` requires feature `a` of `p` — a
feature-activation cycle reachable from the root. -/
def metaC5 : Metadata :=
  { packages := [
      ⟨"P", "p", [("a", ["q/b"]), ("default", ["a"])], [⟨"q", false, [], none⟩], []⟩,
      ⟨"Q", "q", [("b", ["p/a"])], [⟨"p", false, [], none⟩], []⟩],
    workspace_members := ["P"],
    resolveNodes := [⟨"P", [⟨"Q", "q", []⟩]⟩, ⟨"Q", [⟨"P", "p", []⟩]⟩] }

/-- The graph built from the C5 snapshot. -/
def gC5 : G := ((buildGraph metaC5).toOption.getD default).toG

/-- Invariant of the fill worklist on the C5 graph: the stack is never
empty, every stacked node is the root or already has a platform entry,
and every stacked node has at least one outgoing edge. -/
def C5Inv (st : FillSt) : Prop :=
  st.toVisit ≠ [] ∧
    ∀ x ∈ st.toVisit,
      (x = 0 ∨ (platLookup st.plat x).isSome = true) ∧ outEdges gC5 x ≠ []

/-- C7 snapshot: a workspace member with feature table
`a -> []`, `default -> [a]`. -/
def metaC7 : Metadata :=
  { packages := [⟨"P", "p", [("a", []), ("default", ["a"])], [], []⟩],
    workspace_members := ["P"],
    resolveNodes := [⟨"P", []⟩] }

/-- The graph built from the C7 snapshot. -/
def fgC7 : FeatGraph2 := (buildGraph metaC7).toOption.getD default

/-- C8 snapshot family: a workspace member with an optional dependency
named `dn` (no extra features requested, empty feature table), resolved
with kind entries `ks`. -/
def metaC8 (dn : String) (ks : List DepKindInfo) : Metadata :=
  { packages := [
      ⟨"P", "p", [], [⟨dn, true, [], none⟩], []⟩,
      ⟨"D", "d", [], [], []⟩],
    workspace_members := ["P"],
    resolveNodes := [⟨"P", [⟨"D", dn, ks⟩]⟩, ⟨"D", []⟩] }

/-- Characters related the way one zip step of `name_cmp` accepts them. -/
def charOk (l r : Char) : Prop :=
  l.toLower = r.toLower ∨ (l = '-' ∧ r = '_')

theorem name_cmp_chars_of_pointwise (a b : List Char)
    (h : ∀ i (ha : i < a.length) (hb : i < b.length),
      charOk (a.get ⟨i, ha⟩) (b.get ⟨i, hb⟩)) :
    name_cmp_chars a b = true := by
  induction a generalizing b with
  | nil => cases b <;> rfl
  | cons x xs ih =>
    cases b with
    | nil => rfl
    | cons y ys =>
      have h0 : charOk x y := h 0 (Nat.succ_pos _) (Nat.succ_pos _)
      have ht : name_cmp_chars xs ys = true := by
        apply ih
        intro i ha hb
        exact h (i + 1) (Nat.succ_lt_succ ha) (Nat.succ_lt_succ hb)
      simp only [name_cmp_chars, List.zip_cons_cons, List.all_cons, Bool.and_eq_true]
      constructor
      · rcases h0 with h0 | ⟨h1, h2⟩
        · simp [h0]
        · simp [h1, h2]
      · exact ht

theorem name_cmp_refl (s : String) : name_cmp s s = true := by
  apply name_cmp_chars_of_pointwise
  intro i ha hb
  exact Or.inl rfl

theorem find_dep_by_name_of_exists (deps : List Dependency) (name : String)
    (h : ∃ d ∈ deps, declMatches d name = true) :
    ∃ d ∈ deps, find_dep_by_name deps name = Except.ok d ∧ declMatches d name = true := by
  induction deps with
  | nil => rcases h with ⟨d, hd, _⟩; cases hd
  | cons x xs ih =>
    by_cases hx : declMatches x name = true
    · exact ⟨x, List.mem_cons_self _ _, by simp [find_dep_by_name, List.find?, hx], hx⟩
    · have hx' : declMatches x name = false := by
        cases hdm : declMatches x name
        · rfl
        · exact absurd hdm hx
      rcases h with ⟨d, hd, hdm⟩
      rcases List.mem_cons.mp hd with rfl | hdin
      · exact absurd hdm hx
      · rcases ih ⟨d, hdin, hdm⟩ with ⟨d', hd', hfind, hm⟩
        refine ⟨d', List.mem_cons_of_mem _ hd', ?_, hm⟩
        simpa [find_dep_by_name, List.find?, hx'] using hfind

theorem find_dep_by_name_of_none (deps : List Dependency) (name : String)
    (h : ∀ d ∈ deps, declMatches d name = false) :
    find_dep_by_name deps name = Except.error ("No dependency named " ++ name) := by
  have : deps.find? (fun d => declMatches d name) = none := by
    apply List.find?_eq_none.mpr
    intro d hd
    simp [h d hd]
  simp [find_dep_by_name, this]

/-- C1, counterexample to the claim as stated: a declared dependency
`foo_bar` is NOT found for resolved name `foo-bar`, because `name_cmp` only
accepts a dash on the declared side against an underscore on the resolved
side, not the other way around. -/
theorem c1_counterexample :
    find_dep_by_name [⟨"foo_bar", false, [], none⟩] "foo-bar" =
      Except.error "No dependency named foo-bar" := by rfl

/-- C1 (amended): declared-dependency name resolution matches names
case-insensitively; a dash in the DECLARED name (or rename) matches an
underscore in the target name, but not conversely.  A declared dependency
whose name (rename taken instead when present) relates to the target name
character-wise by ASCII case folding or by declared dash against resolved
underscore is found, and when no declared dependency matches under this
relation the lookup fails with a name-not-found error. -/
theorem c1_name_resolution_amended :
    (∀ a b : List Char, a.length = b.length →
      (∀ i (ha : i < a.length) (hb : i < b.length),
        charOk (a.get ⟨i, ha⟩) (b.get ⟨i, hb⟩)) →
      name_cmp_chars a b = true)
    ∧ (∀ deps name, (∃ d ∈ deps, declMatches d name = true) →
        ∃ d ∈ deps, find_dep_by_name deps name = Except.ok d ∧ declMatches d name = true)
    ∧ (∀ deps name, (∀ d ∈ deps, declMatches d name = false) →
        find_dep_by_name deps name = Except.error ("No dependency named " ++ name)) :=
  ⟨fun a b _ h => name_cmp_chars_of_pointwise a b h,
   find_dep_by_name_of_exists,
   find_dep_by_name_of_none⟩

/-- Witness for C1 at concrete inputs: declared `foo-bar` is found for
resolved `foo_bar`, and a list whose sole entry never matches produces the
name-not-found error. -/
theorem c1_witness :
    (∃ d ∈ [Dependency.mk "foo-bar" false [] none],
      find_dep_by_name [Dependency.mk "foo-bar" false [] none] "foo_bar" = Except.ok d ∧
        declMatches d "foo_bar" = true)
    ∧ find_dep_by_name [Dependency.mk "abc" false [] none] "xyz" =
        Except.error "No dependency named xyz" := by
  constructor
  · exact c1_name_resolution_amended.2.1 _ _ ⟨_, List.mem_singleton.mpr rfl, by decide⟩
  · exact c1_name_resolution_amended.2.2 _ _ (by decide)

/-- C10: `name_cmp` ignores length differences.  Whenever the characters up
to the length of the shorter string are pairwise related by ASCII case
folding or by a dash on the first side against an underscore on the second,
the comparison succeeds; in particular declared `foo` matches resolved
`foobar` and `serde?` matches `serde`, and `find_dep_by_name` finds the
declared `foo` for resolved name `foobar`. -/
theorem c10_name_cmp_ignores_length :
    (∀ a b : List Char,
      (∀ i (ha : i < a.length) (hb : i < b.length),
        charOk (a.get ⟨i, ha⟩) (b.get ⟨i, hb⟩)) →
      name_cmp_chars a b = true)
    ∧ name_cmp "foo" "foobar" = true
    ∧ name_cmp "serde?" "serde" = true
    ∧ find_dep_by_name [Dependency.mk "foo" false [] none] "foobar" =
        Except.ok (Dependency.mk "foo" false [] none) :=
  ⟨name_cmp_chars_of_pointwise, by decide, by decide, by rfl⟩

/-- Witness for C10: the pointwise hypothesis discharged at concrete lists
of different lengths. -/
theorem c10_witness :
    name_cmp_chars ['a'] ['A', 'b'] = true :=
  c10_name_cmp_ignores_length.1 ['a'] ['A', 'b'] (by
    intro i ha hb
    have hi : i = 0 := Nat.lt_one_iff.mp (by simpa using ha)
    subst hi
    exact Or.inl (show ('a').toLower = ('A').toLower by decide))

/-! ## Platform-map and fill-fold lemmas -/

theorem sortedInsert_lookup_self (m : PlatMap) (k : Nat) (v : List String)
    (h : platLookup m k = none) : platLookup (sortedInsert m k v) k = some v := by
  induction m with
  | nil => simp [platLookup, sortedInsert]
  | cons p rest ih =>
    obtain ⟨k2, v2⟩ := p
    simp only [platLookup, List.find?_cons] at h
    by_cases hk2 : (k2 == k) = true
    · simp [hk2] at h
    · have hk2f : (k2 == k) = false := by simpa using hk2
      simp only [hk2f, cond_false] at h
      by_cases hlt : k < k2
      · simp [sortedInsert, hlt, platLookup, List.find?_cons]
      · have := ih (by simpa [platLookup] using h)
        simpa [sortedInsert, hlt, platLookup, List.find?_cons, hk2f] using this

theorem sortedInsert_lookup_other (m : PlatMap) (k k2 : Nat) (v : List String)
    (h : k ≠ k2) : platLookup (sortedInsert m k2 v) k = platLookup m k := by
  induction m with
  | nil => simp [platLookup, sortedInsert, List.find?_cons, Ne.symm h]
  | cons p rest ih =>
    obtain ⟨k3, v3⟩ := p
    by_cases hlt : k2 < k3
    · simp [sortedInsert, hlt, platLookup, List.find?_cons, Ne.symm h]
    · simp only [sortedInsert, hlt, if_false]
      by_cases hk3 : (k3 == k) = true
      · simp [platLookup, List.find?_cons, hk3]
      · have hk3f : (k3 == k) = false := by simpa using hk3
        simpa [platLookup, List.find?_cons, hk3f] using ih

theorem insertIfAbsent_lookup_preserved (m : PlatMap) (k k2 : Nat) (v2 w : List String)
    (h : platLookup m k = some w) :
    platLookup (insertIfAbsent m k2 v2) k = some w := by
  unfold insertIfAbsent
  by_cases hp : (platLookup m k2).isSome = true
  · simp [hp, h]
  · have hne : k ≠ k2 := by
      intro he
      subst he
      rw [h] at hp
      simp at hp
    simp only [hp, Bool.false_eq_true, if_false]
    rw [sortedInsert_lookup_other _ _ _ _ hne, h]

theorem insertIfAbsent_lookup_new (m : PlatMap) (k : Nat) (v : List String)
    (h : platLookup m k = none) :
    platLookup (insertIfAbsent m k v) k = some v := by
  unfold insertIfAbsent
  simp only [h, Option.isSome_none, Bool.false_eq_true, if_false]
  exact sortedInsert_lookup_self _ _ _ h

theorem insertIfAbsent_lookup_isSome (m : PlatMap) (k : Nat) (v : List String) :
    (platLookup (insertIfAbsent m k v) k).isSome = true := by
  cases h : platLookup m k with
  | none => simp [insertIfAbsent_lookup_new _ _ _ h]
  | some w => simp [insertIfAbsent_lookup_preserved _ _ _ _ _ h]

theorem insertIfAbsent_lookup_inv (m : PlatMap) (k k2 : Nat) (v w : List String)
    (h : platLookup (insertIfAbsent m k2 v) k = some w) :
    platLookup m k = some w ∨ (k = k2 ∧ platLookup m k = none ∧ w = v) := by
  unfold insertIfAbsent at h
  by_cases hp : (platLookup m k2).isSome = true
  · simp only [hp, if_true] at h
    exact Or.inl h
  · simp only [hp, Bool.false_eq_true, if_false] at h
    by_cases hk : k = k2
    · subst hk
      have hnone : platLookup m k = none := by
        cases hm : platLookup m k
        · rfl
        · rw [hm] at hp; simp at hp
      rw [sortedInsert_lookup_self _ _ _ hnone] at h
      exact Or.inr ⟨rfl, hnone, (Option.some.injEq _ _ ▸ h).symm⟩
    · rw [sortedInsert_lookup_other _ _ _ _ hk] at h
      exact Or.inl h

theorem fillFold_lookup_preserved (ev : String → String → Bool) (cur : List String)
    (es : List Edge) :
    ∀ (m : PlatMap) (st : List Nat) (k : Nat) (w : List String),
      platLookup m k = some w →
      platLookup (es.foldl (fillStepF ev cur) (m, st)).1 k = some w := by
  induction es with
  | nil => intro m st k w h; simpa using h
  | cons e es ih =>
    intro m st k w h
    simp only [List.foldl_cons]
    exact ih _ _ _ _ (insertIfAbsent_lookup_preserved _ _ _ _ _ h)

theorem fillFold_lookup_isSome_preserved (ev : String → String → Bool) (cur : List String)
    (es : List Edge) (m : PlatMap) (st : List Nat) (k : Nat)
    (h : (platLookup m k).isSome = true) :
    (platLookup (es.foldl (fillStepF ev cur) (m, st)).1 k).isSome = true := by
  obtain ⟨w, hw⟩ := Option.isSome_iff_exists.mp h
  rw [fillFold_lookup_preserved ev cur es m st k w hw]
  rfl

theorem fillFold_lookup_inv (ev : String → String → Bool) (cur : List String)
    (es : List Edge) :
    ∀ (m : PlatMap) (st : List Nat) (k : Nat) (w : List String),
      platLookup (es.foldl (fillStepF ev cur) (m, st)).1 k = some w →
      platLookup m k = some w ∨
        ∃ e ∈ es, e.tgt = k ∧ w = cur.filter (fun p => edgeAccepts ev e.link p) := by
  induction es with
  | nil =>
    intro m st k w h
    exact Or.inl (by simpa using h)
  | cons e es ih =>
    intro m st k w h
    simp only [List.foldl_cons] at h
    rcases ih _ _ _ _ h with h1 | ⟨e2, he2, h2, h3⟩
    · rcases insertIfAbsent_lookup_inv _ _ _ _ _ h1 with h4 | ⟨h5, _, h6⟩
      · exact Or.inl h4
      · exact Or.inr ⟨e, List.mem_cons_self _ _, h5.symm, h6⟩
    · exact Or.inr ⟨e2, List.mem_cons_of_mem _ he2, h2, h3⟩

theorem fillFold_targets_inserted (ev : String → String → Bool) (cur : List String)
    (es : List Edge) :
    ∀ (m : PlatMap) (st : List Nat), ∀ e ∈ es,
      (platLookup (es.foldl (fillStepF ev cur) (m, st)).1 e.tgt).isSome = true := by
  induction es with
  | nil => intro m st e he; cases he
  | cons e0 es ih =>
    intro m st e he
    simp only [List.foldl_cons]
    rcases List.mem_cons.mp he with rfl | he2
    · exact fillFold_lookup_isSome_preserved ev cur es _ _ _
        (insertIfAbsent_lookup_isSome _ _ _)
    · exact ih _ _ e he2

theorem fillFold_stack_mem_inv (ev : String → String → Bool) (cur : List String)
    (es : List Edge) :
    ∀ (m : PlatMap) (st : List Nat) (x : Nat),
      x ∈ (es.foldl (fillStepF ev cur) (m, st)).2 →
      x ∈ st ∨ ∃ e ∈ es, e.tgt = x := by
  induction es with
  | nil => intro m st x h; exact Or.inl (by simpa using h)
  | cons e es ih =>
    intro m st x h
    simp only [List.foldl_cons] at h
    rcases ih _ _ _ h with h1 | ⟨e2, he2, h2⟩
    · rcases List.mem_cons.mp h1 with rfl | h3
      · exact Or.inr ⟨e, List.mem_cons_self _ _, rfl⟩
      · exact Or.inl h3
    · exact Or.inr ⟨e2, List.mem_cons_of_mem _ he2, h2⟩

theorem fillFold_stack_mem_of_stack (ev : String → String → Bool) (cur : List String)
    (es : List Edge) :
    ∀ (m : PlatMap) (st : List Nat) (x : Nat), x ∈ st →
      x ∈ (es.foldl (fillStepF ev cur) (m, st)).2 := by
  induction es with
  | nil => intro m st x h; simpa using h
  | cons e es ih =>
    intro m st x h
    simp only [List.foldl_cons]
    exact ih _ _ _ (List.mem_cons_of_mem _ h)

theorem fillFold_stack_mem_of_target (ev : String → String → Bool) (cur : List String)
    (es : List Edge) :
    ∀ (m : PlatMap) (st : List Nat) (e : Edge), e ∈ es →
      e.tgt ∈ (es.foldl (fillStepF ev cur) (m, st)).2 := by
  induction es with
  | nil => intro m st e he; cases he
  | cons e0 es ih =>
    intro m st e he
    rcases List.mem_cons.mp he with rfl | h2
    · simp only [List.foldl_cons]
      exact fillFold_stack_mem_of_stack _ _ _ _ _ _ (List.mem_cons_self _ _)
    · simp only [List.foldl_cons]
      exact ih _ _ _ h2

theorem fillFold_stack_length (ev : String → String → Bool) (cur : List String)
    (es : List Edge) :
    ∀ (m : PlatMap) (st : List Nat),
      ((es.foldl (fillStepF ev cur) (m, st)).2).length = st.length + es.length := by
  induction es with
  | nil => intro m st; simp
  | cons e es ih =>
    intro m st
    simp only [List.foldl_cons]
    rw [ih]
    simp [fillStepF]
    omega

theorem outEdges_mem (g : G) (s : Nat) (e : Edge) (h : e ∈ outEdges g s) :
    e ∈ g.edges ∧ e.src = s := by
  unfold outEdges at h
  rw [List.mem_reverse] at h
  have := List.mem_filter.mp h
  exact ⟨this.1, by simpa using this.2⟩

theorem mem_outEdges (g : G) (e : Edge) (h : e ∈ g.edges) : e ∈ outEdges g e.src := by
  unfold outEdges
  rw [List.mem_reverse]
  exact List.mem_filter.mpr ⟨h, by simp⟩

/-! ## runFill invariants -/

theorem runFill_lookup_preserved (ev : String → String → Bool) (g : G) (req : List String) :
    ∀ (f : Nat) (st : FillSt) (m : PlatMap) (k : Nat) (w : List String),
      runFill ev g req f st = FillResult.ok m →
      platLookup st.plat k = some w → platLookup m k = some w := by
  intro f
  induction f with
  | zero =>
    intro st m k w h
    simp [runFill] at h
  | succ f ih =>
    rintro ⟨tv, plat⟩ m k w h hk
    cases tv with
    | nil =>
      simp only [runFill, FillResult.ok.injEq] at h
      subst h
      exact hk
    | cons s rest =>
      simp only [runFill, fillVisit] at h
      split at h
      · cases h
      · exact ih _ _ _ _ h (fillFold_lookup_preserved _ _ _ _ _ _ _ hk)

theorem runFill_final_shape (ev : String → String → Bool) (g : G) (req : List String) :
    ∀ (f : Nat) (st : FillSt) (m : PlatMap),
      runFill ev g req f st = FillResult.ok m →
      (∀ k w, platLookup st.plat k = some w →
        ∃ e ∈ g.edges, e.tgt = k ∧ ∃ cur, platSrc req m e.src = some cur ∧
          w = cur.filter (fun p => edgeAccepts ev e.link p)) →
      ∀ k w, platLookup m k = some w →
        ∃ e ∈ g.edges, e.tgt = k ∧ ∃ cur, platSrc req m e.src = some cur ∧
          w = cur.filter (fun p => edgeAccepts ev e.link p) := by
  intro f
  induction f with
  | zero =>
    intro st m h
    simp [runFill] at h
  | succ f ih =>
    rintro ⟨tv, plat⟩ m h hst0
    cases tv with
    | nil =>
      simp only [runFill, FillResult.ok.injEq] at h
      subst h
      exact hst0
    | cons s rest =>
      simp only [runFill, fillVisit] at h
      split at h
      · cases h
      · rename_i cur heq
        refine ih _ _ h ?_
        intro k w hk
        rcases fillFold_lookup_inv _ _ _ _ _ _ _ hk with h1 | ⟨e, he, h2, h3⟩
        · exact hst0 k w h1
        · obtain ⟨heg, hes⟩ := outEdges_mem g s e he
          refine ⟨e, heg, h2, cur, ?_, h3⟩
          rw [hes]
          unfold platSrc
          by_cases h0 : s = 0
          · subst h0
            simp only [if_true]
            simpa using heq
          · have hb : (s == 0) = false := by simpa using h0
            rw [hb] at heq
            simp only [Bool.false_eq_true, if_false] at heq
            simp only [h0, if_false]
            have hcur2 : platLookup (((outEdges g s).foldl (fillStepF ev cur)
                (plat, rest)).1) s = some cur :=
              fillFold_lookup_preserved _ _ _ _ _ _ _ heq
            exact runFill_lookup_preserved ev g req f _ m s cur h hcur2

theorem runFill_completeness (ev : String → String → Bool) (g : G) (req : List String) :
    ∀ (f : Nat) (st : FillSt) (m : PlatMap),
      runFill ev g req f st = FillResult.ok m →
      (∀ e ∈ g.edges, (e.src = 0 ∨ (platLookup st.plat e.src).isSome = true) →
        e.src ∉ st.toVisit → (platLookup st.plat e.tgt).isSome = true) →
      ∀ e ∈ g.edges, (e.src = 0 ∨ (platLookup m e.src).isSome = true) →
        (platLookup m e.tgt).isSome = true := by
  intro f
  induction f with
  | zero =>
    intro st m h
    simp [runFill] at h
  | succ f ih =>
    rintro ⟨tv, plat⟩ m h hJ
    cases tv with
    | nil =>
      simp only [runFill, FillResult.ok.injEq] at h
      subst h
      intro e he hsrc
      exact hJ e he hsrc (List.not_mem_nil _)
    | cons s rest =>
      simp only [runFill, fillVisit] at h
      split at h
      · cases h
      · rename_i cur heq
        refine ih _ _ h ?_
        intro e he hsrc hnotin
        by_cases hes : e.src = s
        · have hmo : e ∈ outEdges g s := by
            rw [← hes]
            exact mem_outEdges g e he
          exact fillFold_targets_inserted _ _ _ _ _ e hmo
        · have hnr : e.src ∉ rest := fun hmem =>
            hnotin (fillFold_stack_mem_of_stack _ _ _ _ _ _ hmem)
          have hnt : ¬ ∃ e2 ∈ outEdges g s, e2.tgt = e.src := by
            rintro ⟨e2, he2, h2⟩
            apply hnotin
            rw [← h2]
            exact fillFold_stack_mem_of_target _ _ _ _ _ _ he2
          have hsrc0 : e.src = 0 ∨ (platLookup plat e.src).isSome = true := by
            rcases hsrc with h0 | hsome
            · exact Or.inl h0
            · right
              obtain ⟨w, hw⟩ := Option.isSome_iff_exists.mp hsome
              rcases fillFold_lookup_inv _ _ _ _ _ _ _ hw with h1 | ⟨e2, he2, h2, _⟩
              · rw [h1]; rfl
              · exact absurd ⟨e2, he2, h2⟩ hnt
          have hnotin0 : e.src ∉ s :: rest := by
            intro hmem
            rcases List.mem_cons.mp hmem with h1 | h1
            · exact hes h1
            · exact hnr h1
          have hend := hJ e he hsrc0 hnotin0
          exact fillFold_lookup_isSome_preserved _ _ _ _ _ _ hend

theorem runFill_reaches_assigned (ev : String → String → Bool) (g : G) (req : List String)
    (f : Nat) (m : PlatMap) (h : runFill ev g req f ⟨[0], []⟩ = FillResult.ok m) :
    ∀ u v, ReachesE g.edges u v → (u = 0 ∨ (platLookup m u).isSome = true) →
      v = u ∨ (platLookup m v).isSome = true := by
  have hfinal : ∀ e ∈ g.edges, (e.src = 0 ∨ (platLookup m e.src).isSome = true) →
      (platLookup m e.tgt).isSome = true := by
    refine runFill_completeness ev g req f _ m h ?_
    intro e he hsrc hnotin
    rcases hsrc with h0 | hsome
    · exact absurd (by rw [h0]; exact List.mem_cons_self _ _) hnotin
    · simp [platLookup] at hsome
  intro u v hr
  induction hr with
  | refl u => intro; exact Or.inl rfl
  | step e he h2 ih =>
    intro hu
    have ht : (platLookup m e.tgt).isSome = true := hfinal e he hu
    rcases ih (Or.inr ht) with h3 | h3
    · rw [h3]
      exact Or.inr ht
    · exact Or.inr h3

/-- C2: during platform propagation every node reached from the root gets
its platform set assigned exactly once.  Part one: an entry of the platform
map is never changed by further traversal (so later arrivals never add
platforms).  Part two: every entry of the final map was produced by some
arriving edge, as the platform set of that edge source (the requested list
for the root) restricted to the platforms accepted by the edge kinds (a
predicate-free entry accepts every platform, and an empty kinds sequence is
unconditional).  Part three: every node reachable from the root is
assigned when the traversal finishes. -/
theorem c2_fill_in_platforms_first_writer :
    (∀ (ev : String → String → Bool) (g : G) (req : List String) (f : Nat)
        (st : FillSt) (m : PlatMap) (k : Nat) (w : List String),
      runFill ev g req f st = FillResult.ok m →
      platLookup st.plat k = some w → platLookup m k = some w)
    ∧ (∀ (ev : String → String → Bool) (g : G) (req : List String) (f : Nat)
        (m : PlatMap) (k : Nat) (w : List String),
      runFill ev g req f ⟨[0], []⟩ = FillResult.ok m →
      platLookup m k = some w →
      ∃ e ∈ g.edges, e.tgt = k ∧ ∃ cur, platSrc req m e.src = some cur ∧
        w = cur.filter (fun p => edgeAccepts ev e.link p))
    ∧ (∀ (ev : String → String → Bool) (g : G) (req : List String) (f : Nat)
        (m : PlatMap) (k : Nat),
      runFill ev g req f ⟨[0], []⟩ = FillResult.ok m →
      ReachesE g.edges 0 k → k ≠ 0 → (platLookup m k).isSome = true) := by
  refine ⟨fun ev g req f st m k w h hk =>
      runFill_lookup_preserved ev g req f st m k w h hk, ?_, ?_⟩
  · intro ev g req f m k w h hk
    refine runFill_final_shape ev g req f _ m h ?_ k w hk
    intro k2 w2 hk2
    simp [platLookup] at hk2
  · intro ev g req f m k h hr hk0
    rcases runFill_reaches_assigned ev g req f m h 0 k hr (Or.inl rfl) with h1 | h1
    · exact absurd h1 hk0
    · exact h1

/-- Witness for C2: on a one-edge graph the theorem recovers the edge that
assigned the platform set of node 1. -/
theorem c2_witness :
    ∃ e ∈ (G.mk [Feature.Root, Feature.External (0, none)]
        [⟨0, 1, ⟨false, []⟩⟩]).edges,
      e.tgt = 1 ∧ ∃ cur, platSrc ["x"] [(1, ["x"])] e.src = some cur ∧
        ["x"] = cur.filter (fun p => edgeAccepts evEq e.link p) :=
  c2_fill_in_platforms_first_writer.2.1 evEq
    (G.mk [Feature.Root, Feature.External (0, none)] [⟨0, 1, ⟨false, []⟩⟩])
    ["x"] 3 [(1, ["x"])] 1 ["x"] (by rfl) (by rfl)

/-- C3 is a code bug: on the C3 snapshot, propagation computes the empty
platform set for node 3 (the base feature of package `p2`), yet after
`optimize` the graph still contains that node.  `trim_unused_platforms`
removes nodes by pre-collected petgraph indices, and `remove_node` moves
the last node into the freed slot, so removing node 2 relocates node 3 to
index 2 and the subsequent `remove_node(3)` is a no-op. -/
theorem c3_trim_platforms_bug :
    platLookup mC3 3 = some []
    ∧ init evEq metaC3 ["linux"] 20 =
        some ⟨[Feature.Root, Feature.Workspace (0, none), Feature.External (2, none)],
              [⟨0, 1, ⟨false, []⟩⟩,
               ⟨1, 2, ⟨false, [⟨"normal", some "windows"⟩]⟩⟩]⟩
    ∧ Feature.External (2, none) ∈
        ((init evEq metaC3 ["linux"] 20).getD default).nodes := by
  refine ⟨by rfl, by rfl, by decide⟩

/-- The fill worklist on the C5 graph never terminates: the invariant is
preserved by every step, so every fuel bound is exhausted. -/
theorem c5_run_out : ∀ (f : Nat) (st : FillSt), C5Inv st →
    (runFill evEq gC5 ["linux"] f st).isOutOfFuel = true := by
  intro f
  induction f with
  | zero => intro st h; rfl
  | succ f ih =>
    rintro ⟨tv, plat⟩ ⟨hne, hx⟩
    cases tv with
    | nil => exact absurd rfl hne
    | cons s rest =>
      obtain ⟨hsome, hout⟩ := hx s (List.mem_cons_self _ _)
      have hcur : ∃ cur, (if s == 0 then some ["linux"] else platLookup plat s) = some cur := by
        rcases hsome with h0 | h1
        · subst h0
          exact ⟨["linux"], by simp⟩
        · obtain ⟨w, hw⟩ := Option.isSome_iff_exists.mp h1
          by_cases h0 : s = 0
          · exact ⟨["linux"], by simp [h0]⟩
          · have hb : (s == 0) = false := by simpa using h0
            exact ⟨w, by simp [hb, hw]⟩
      obtain ⟨cur, hcur⟩ := hcur
      simp only [runFill, fillVisit, hcur]
      apply ih
      constructor
      · have hlen := fillFold_stack_length evEq cur (outEdges gC5 s) plat rest
        intro hnil
        have hnil2 : (List.foldl (fillStepF evEq cur) (plat, rest) (outEdges gC5 s)).2 = [] := hnil
        rw [hnil2] at hlen
        simp only [List.length_nil] at hlen
        have hz : (outEdges gC5 s).length = 0 := by omega
        exact hout (List.length_eq_zero.mp hz)
      · intro x hxm
        rcases fillFold_stack_mem_inv _ _ _ _ _ _ hxm with h1 | ⟨e, he, h2⟩
        · obtain ⟨hs1, hs2⟩ := hx x (List.mem_cons_of_mem _ h1)
          refine ⟨?_, hs2⟩
          rcases hs1 with h0 | h3
          · exact Or.inl h0
          · exact Or.inr (fillFold_lookup_isSome_preserved _ _ _ _ _ _ h3)
        · constructor
          · right
            rw [← h2]
            exact fillFold_targets_inserted _ _ _ _ _ e he
          · rw [← h2]
            have heg : e ∈ gC5.edges := (outEdges_mem gC5 s e he).1
            revert heg
            have hfact : ∀ e2 ∈ gC5.edges, outEdges gC5 e2.tgt ≠ [] := by decide
            exact hfact e

/-- C5 is a code bug: the C5 snapshot encodes a feature-activation cycle
(the nodes of feature `a` of `p` and feature `b` of `q` reach each other),
and on it `fill_in_platforms` — which `init` runs before any cycle check —
loops forever instead of terminating with a `CyclicFeatureGraph` error:
the worklist run exhausts every fuel bound. -/
theorem c5_cycle_hangs :
    (ReachesE gC5.edges 4 5 ∧ ReachesE gC5.edges 5 4)
    ∧ ∀ fuel, (runFill evEq gC5 ["linux"] fuel ⟨[0], []⟩).isOutOfFuel = true := by
  constructor
  · constructor
    · exact ReachesE.step ⟨4, 5, ⟨false, []⟩⟩ (by decide) (ReachesE.refl 5)
    · exact ReachesE.step ⟨5, 4, ⟨false, []⟩⟩ (by decide) (ReachesE.refl 4)
  · intro fuel
    apply c5_run_out
    constructor
    · simp
    · intro x hx
      have hx0 : x = 0 := by simpa using hx
      subst hx0
      exact ⟨Or.inl rfl, by decide⟩

/-! ## trim_unused_features lemmas -/

theorem swapRemove_nodes_perm (l : List Feature) (i : Nat) (hi : i < l.length) :
    ((l.set i (l.getD (l.length - 1) Feature.Root)).dropLast).Perm (l.eraseIdx i) := by
  by_cases hlast : i = l.length - 1
  · subst hlast
    have h1 : (l.set (l.length - 1) (l.getD (l.length - 1) Feature.Root)).dropLast
        = l.take (l.length - 1) := by
      rw [List.dropLast_eq_take, List.length_set]
      rw [List.set_eq_take_cons_drop _ hi]
      have hd : l.drop (l.length - 1 + 1) = [] := by
        apply List.drop_eq_nil_of_le
        omega
      rw [hd]
      have hlt : (l.take (l.length - 1)).length = l.length - 1 := by
        rw [List.length_take]
        omega
      rw [List.take_left' hlt]
    rw [h1, List.eraseIdx_eq_take_drop_succ]
    have hd : l.drop (l.length - 1 + 1) = [] := by
      apply List.drop_eq_nil_of_le
      omega
    rw [hd, List.append_nil]
  · have hi2 : i < l.length - 1 := by omega
    have hdnn : l.drop (i + 1) ≠ [] := by
      intro hd
      have := List.drop_eq_nil_iff.mp hd
      omega
    have hset : l.set i (l.getD (l.length - 1) Feature.Root)
        = l.take i ++ l.getD (l.length - 1) Feature.Root :: l.drop (i + 1) :=
      List.set_eq_take_cons_drop _ hi
    have hlen1 : (l.take i).length = i := by
      rw [List.length_take]
      omega
    have hstep : (l.set i (l.getD (l.length - 1) Feature.Root)).dropLast
        = l.take i ++ l.getD (l.length - 1) Feature.Root :: (l.drop (i + 1)).dropLast := by
      rw [List.dropLast_eq_take, List.length_set, hset]
      rw [List.take_append_eq_append_take]
      rw [hlen1]
      have h3 : (l.take i).take (l.length - 1) = l.take i := by
        rw [List.take_take]
        congr 1
        omega
      rw [h3]
      congr 1
      have h4 : l.length - 1 - i = (l.drop (i + 1)).length - 1 + 1 := by
        rw [List.length_drop]
        omega
      rw [h4, List.take_succ_cons]
      congr 1
      exact (List.dropLast_eq_take _).symm
    rw [hstep, List.eraseIdx_eq_take_drop_succ]
    have hd2 : l.drop (i + 1) = (l.drop (i + 1)).dropLast
        ++ [(l.drop (i + 1)).getLast hdnn] :=
      (List.dropLast_append_getLast hdnn).symm
    have hlast2 : (l.drop (i + 1)).getLast hdnn = l.getD (l.length - 1) Feature.Root := by
      rw [List.getLast_eq_getElem]
      have hidx : (l.drop (i + 1)).length - 1 < (l.drop (i + 1)).length := by
        rw [List.length_drop]
        omega
      rw [List.getElem_drop]
      have hl1 : l.length - 1 < l.length := by omega
      have hgd : l.getD (l.length - 1) Feature.Root = l[l.length - 1] := by
        rw [List.getD_eq_getElem?_getD, List.getElem?_eq_getElem hl1]
        rfl
      rw [hgd]
      congr 1
      rw [List.length_drop]
      omega
    conv_rhs => rw [hd2, hlast2]
    refine List.Perm.append_left _ ?_
    exact (List.perm_middle.trans (by rw [List.append_nil])).symm

theorem filter_eraseIdx_of_neg (p : Feature → Bool) :
    ∀ (l : List Feature) (i : Nat) (hi : i < l.length), p (l[i]) = false →
      (l.eraseIdx i).filter p = l.filter p := by
  intro l
  induction l with
  | nil => intro i hi; cases hi
  | cons x xs ih =>
    intro i hi hp
    cases i with
    | zero =>
      simp only [List.eraseIdx_cons_zero]
      simp only [List.getElem_cons_zero] at hp
      simp [List.filter_cons, hp]
    | succ j =>
      simp only [List.eraseIdx_cons_succ]
      simp only [List.getElem_cons_succ] at hp
      have hj : j < xs.length := by
        simp only [List.length_cons] at hi
        omega
      simp only [List.filter_cons]
      rw [ih j hj hp]

theorem removeNode_nonExternal_perm (g : G) (i : Nat)
    (hok : ∀ (h : i < g.nodes.length), isExternalW (g.nodes[i]) = true) :
    ((removeNode g i).nodes.filter (fun w => !isExternalW w)).Perm
      (g.nodes.filter (fun w => !isExternalW w)) := by
  unfold removeNode
  by_cases hi : i < g.nodes.length
  · simp only [hi, if_true]
    refine ((swapRemove_nodes_perm g.nodes i hi).filter _).trans ?_
    rw [filter_eraseIdx_of_neg _ _ _ hi (by simp [hok hi])]
  · simp [hi]

theorem removeNode_length_le (g : G) (i : Nat) :
    (removeNode g i).nodes.length ≤ g.nodes.length := by
  unfold removeNode
  by_cases hi : i < g.nodes.length
  · simp only [hi, if_true]
    rw [List.length_dropLast, List.length_set]
    omega
  · simp [hi]

theorem removeNode_length_lt (g : G) (i : Nat) (hi : i < g.nodes.length) :
    (removeNode g i).nodes.length < g.nodes.length := by
  unfold removeNode
  simp only [hi, if_true]
  rw [List.length_dropLast, List.length_set]
  omega

theorem foldRemove_length_le : ∀ (tr : List Nat) (g : G),
    (tr.foldl removeNode g).nodes.length ≤ g.nodes.length := by
  intro tr
  induction tr with
  | nil => intro g; exact Nat.le_refl _
  | cons i tr ih =>
    intro g
    simp only [List.foldl_cons]
    exact Nat.le_trans (ih _) (removeNode_length_le g i)

theorem foldRemove_perm : ∀ (tr : List Nat) (g : G),
    tr.Pairwise (fun a b => a ≠ b) →
    (∀ j ∈ tr, ∀ (h : j < g.nodes.length), isExternalW (g.nodes[j]) = true) →
    ((tr.foldl removeNode g).nodes.filter (fun w => !isExternalW w)).Perm
      (g.nodes.filter (fun w => !isExternalW w)) := by
  intro tr
  induction tr with
  | nil => intro g _ _; exact List.Perm.refl _
  | cons i tr ih =>
    intro g hpw hext
    simp only [List.foldl_cons]
    have hne : ∀ j ∈ tr, i ≠ j := (List.pairwise_cons.mp hpw).1
    have hpw2 : tr.Pairwise (fun a b => a ≠ b) := (List.pairwise_cons.mp hpw).2
    refine (ih (removeNode g i) hpw2 ?_).trans
      (removeNode_nonExternal_perm g i (fun h => hext i (List.mem_cons_self _ _) h))
    intro j hj h2
    have hji : j ≠ i := fun he => (hne j hj) he.symm
    unfold removeNode at h2 ⊢
    by_cases hi : i < g.nodes.length
    · simp only [hi, if_true] at h2 ⊢
      have hlen2 : ((g.nodes.set i (g.nodes.getD (g.nodes.length - 1) Feature.Root)).dropLast).length
          = g.nodes.length - 1 := by
        rw [List.length_dropLast, List.length_set]
      have hj2 : j < g.nodes.length - 1 := by
        rw [hlen2] at h2
        exact h2
      have hjlen : j < g.nodes.length := by omega
      have hval : ((g.nodes.set i (g.nodes.getD (g.nodes.length - 1) Feature.Root)).dropLast)[j]
          = g.nodes[j] := by
        rw [List.getElem_dropLast, List.getElem_set_ne (fun he => hji he.symm)]
      rw [hval]
      exact hext j (List.mem_cons_of_mem _ hj) hjlen
    · simp only [hi, if_false] at h2 ⊢
      exact hext j (List.mem_cons_of_mem _ hj) h2

theorem externalsNoIncoming_mem (g : G) (j : Nat) (hj : j ∈ externalsNoIncoming g) :
    j < g.nodes.length ∧ ∀ (h : j < g.nodes.length), isExternalW (g.nodes[j]) = true := by
  unfold externalsNoIncoming at hj
  have h1 := List.mem_filter.mp hj
  have h2 : j < g.nodes.length := List.mem_range.mp h1.1
  refine ⟨h2, fun h => ?_⟩
  have h3 := h1.2
  simp only [Bool.and_eq_true] at h3
  have h4 := h3.2
  rw [List.getD_eq_getElem?_getD, List.getElem?_eq_getElem h2] at h4
  exact h4

theorem externalsNoIncoming_pairwise (g : G) :
    (externalsNoIncoming g).Pairwise (fun a b => a ≠ b) := by
  unfold externalsNoIncoming
  exact ((List.pairwise_lt_range _).filter _).imp Nat.ne_of_lt

theorem trimRound_perm (g : G) :
    ((trimRound g).1.nodes.filter (fun w => !isExternalW w)).Perm
      (g.nodes.filter (fun w => !isExternalW w)) := by
  unfold trimRound
  by_cases h : (externalsNoIncoming g).isEmpty
  · simp [h]
  · simp only [h, Bool.false_eq_true, if_false]
    exact foldRemove_perm _ g (externalsNoIncoming_pairwise g)
      (fun j hj => (externalsNoIncoming_mem g j hj).2)

theorem trimRound_decrease (g : G) (h : (trimRound g).2 = true) :
    (trimRound g).1.nodes.length < g.nodes.length := by
  unfold trimRound at h ⊢
  by_cases he : (externalsNoIncoming g).isEmpty
  · simp [he] at h
  · simp only [he, Bool.false_eq_true, if_false] at h ⊢
    cases htr : externalsNoIncoming g with
    | nil => rw [htr] at he; simp at he
    | cons i tr =>
      have hi : i < g.nodes.length :=
        (externalsNoIncoming_mem g i (by rw [htr]; exact List.mem_cons_self _ _)).1
      simp only [List.foldl_cons]
      exact Nat.lt_of_le_of_lt (foldRemove_length_le tr _) (removeNode_length_lt g i hi)

theorem trimRound_false (g : G) (h : (trimRound g).2 = false) :
    externalsNoIncoming g = [] ∧ (trimRound g).1 = g := by
  unfold trimRound at h ⊢
  by_cases he : (externalsNoIncoming g).isEmpty
  · exact ⟨List.isEmpty_iff.mp he, by simp [he]⟩
  · simp [he] at h

theorem trimLoop_perm : ∀ (fuel : Nat) (g : G),
    ((trimLoop fuel g).nodes.filter (fun w => !isExternalW w)).Perm
      (g.nodes.filter (fun w => !isExternalW w)) := by
  intro fuel
  induction fuel with
  | zero => intro g; exact List.Perm.refl _
  | succ f ih =>
    intro g
    rw [trimLoop]
    by_cases h : (trimRound g).2
    · simp only [h, if_true]
      exact (ih _).trans (trimRound_perm g)
    · simp only [h, Bool.false_eq_true, if_false]
      exact List.Perm.refl _

theorem trimLoop_fixpoint : ∀ (fuel : Nat) (g : G), g.nodes.length < fuel →
    externalsNoIncoming (trimLoop fuel g) = [] := by
  intro fuel
  induction fuel with
  | zero => intro g h; omega
  | succ f ih =>
    intro g hlen
    rw [trimLoop]
    by_cases h : (trimRound g).2
    · simp only [h, if_true]
      refine ih _ ?_
      have := trimRound_decrease g h
      omega
    · simp only [h, Bool.false_eq_true, if_false]
      exact (trimRound_false g (by simpa using h)).1

/-- C4: the trim-unused-features pass removes only `External` nodes — the
multiset of `Workspace` and `Root` node weights is preserved — and runs to
a fixpoint: the resulting graph has no `External` node without incoming
edges.  On the concrete three-node external chain whose outermost member
has no incoming edge, all three nodes are removed. -/
theorem c4_trim_unused_features :
    (∀ g : G, ((trim_unused_features g).nodes.filter (fun w => !isExternalW w)).Perm
        (g.nodes.filter (fun w => !isExternalW w)))
    ∧ (∀ g : G, externalsNoIncoming (trim_unused_features g) = [])
    ∧ trim_unused_features ⟨[Feature.Root, Feature.External (1, none),
        Feature.External (2, none), Feature.External (3, none)],
        [⟨1, 2, rootLink⟩, ⟨2, 3, rootLink⟩]⟩ = ⟨[Feature.Root], []⟩ := by
  refine ⟨fun g => trimLoop_perm _ g, fun g => trimLoop_fixpoint _ g (Nat.lt_succ_self _), by rfl⟩

/-! ## Transitive reduction lemmas -/

theorem ReachesE_trans (E : List Edge) (u v w : Nat)
    (h1 : ReachesE E u v) (h2 : ReachesE E v w) : ReachesE E u w := by
  induction h1 with
  | refl => exact h2
  | step e he h ih => exact ReachesE.step e he (ih h2)

theorem ReachesE_mono (E E' : List Edge) (hsub : ∀ e ∈ E', e ∈ E) :
    ∀ {u v : Nat}, ReachesE E' u v → ReachesE E u v := by
  intro u v h
  induction h with
  | refl u => exact ReachesE.refl u
  | step e he h ih => exact ReachesE.step e (hsub e he) ih

theorem ReachesE_rank_le (E : List Edge) (rank : Nat → Nat)
    (hr : ∀ e ∈ E, rank e.src < rank e.tgt) {u v : Nat} (h : ReachesE E u v) :
    rank u ≤ rank v := by
  induction h with
  | refl => exact Nat.le_refl _
  | step e he h ih => exact Nat.le_of_lt (Nat.lt_of_lt_of_le (hr e he) ih)

theorem ReachesE_rank_lt (E : List Edge) (rank : Nat → Nat)
    (hr : ∀ e ∈ E, rank e.src < rank e.tgt) {u v : Nat} (h : ReachesE E u v)
    (hne : u ≠ v) : rank u < rank v := by
  cases h with
  | refl => exact absurd rfl hne
  | step e he h2 => exact Nat.lt_of_lt_of_le (hr e he) (ReachesE_rank_le E rank hr h2)

theorem reachB_sound (E : List Edge) :
    ∀ (fuel u v : Nat), reachB E fuel u v = true → ReachesE E u v := by
  intro fuel
  induction fuel with
  | zero => intro u v h; simp [reachB] at h
  | succ f ih =>
    intro u v h
    simp only [reachB, Bool.or_eq_true] at h
    rcases h with h | h
    · have hv : u = v := by simpa using h
      subst hv
      exact ReachesE.refl u
    · obtain ⟨e, he, h2⟩ := List.any_eq_true.mp h
      simp only [Bool.and_eq_true] at h2
      have hsrc : e.src = u := by simpa using h2.1
      exact hsrc ▸ ReachesE.step e he (ih _ _ h2.2)

theorem reachB_complete (E : List Edge) (rank : Nat → Nat)
    (hr : ∀ e ∈ E, rank e.src < rank e.tgt) {u v : Nat} (h : ReachesE E u v) :
    ∀ fuel, rank v + 1 ≤ fuel + rank u → reachB E fuel u v = true := by
  induction h with
  | refl u =>
    intro fuel hf
    cases fuel with
    | zero => omega
    | succ f => simp [reachB]
  | step e he h2 ih =>
    intro fuel hf
    have hst := hr e he
    have hle := ReachesE_rank_le E rank hr h2
    cases fuel with
    | zero => omega
    | succ f =>
      simp only [reachB, Bool.or_eq_true]
      right
      refine List.any_eq_true.mpr ⟨e, he, ?_⟩
      simp only [Bool.and_eq_true]
      exact ⟨by simp, ih f (by omega)⟩

theorem keepEdge_false (g : G) (e : Edge) (h : keepEdge g e = false) :
    ∃ f ∈ g.edges, f.src = e.src ∧ f.tgt ≠ e.tgt ∧
      reachB g.edges (g.nodes.length + 1) f.tgt e.tgt = true := by
  unfold keepEdge at h
  have h' : (g.edges.any fun f =>
      f.src == e.src && !(f.tgt == e.tgt) &&
        reachB g.edges (g.nodes.length + 1) f.tgt e.tgt) = true := by
    simpa using h
  obtain ⟨f, hf, h2⟩ := List.any_eq_true.mp h' 
  simp only [Bool.and_eq_true] at h2
  refine ⟨f, hf, by simpa using h2.1.1, ?_, h2.2⟩
  have := h2.1.2
  simp only [Bool.not_eq_true'] at this
  exact fun he => by simp [he] at this

theorem red_edge_aux (g : G) (rank : Nat → Nat) (hrank : RankOK g rank) (u : Nat)
    (houter : ∀ u', rank u < rank u' → ∀ v, ReachesE g.edges u' v →
      ReachesE (transRedCore g).edges u' v) :
    ∀ (K : Nat) (e : Edge), e ∈ g.edges → e.src = u → rank e.tgt ≤ K →
      ReachesE (transRedCore g).edges u e.tgt := by
  intro K
  induction K with
  | zero =>
    intro e he _ hK
    have h1 := (hrank e he).1
    omega
  | succ K ih =>
    intro e he hsrc hK
    by_cases hkeep : keepEdge g e = true
    · have hmem : e ∈ (transRedCore g).edges := List.mem_filter.mpr ⟨he, hkeep⟩
      have hstep : ReachesE (transRedCore g).edges e.src e.tgt :=
        ReachesE.step e hmem (ReachesE.refl e.tgt)
      rwa [hsrc] at hstep
    · obtain ⟨f, hf, hfs, hft, hreach⟩ := keepEdge_false g e (by simpa using hkeep)
      have hre : ReachesE g.edges f.tgt e.tgt := reachB_sound _ _ _ _ hreach
      have hrank_edges : ∀ e2 ∈ g.edges, rank e2.src < rank e2.tgt :=
        fun e2 h2 => (hrank e2 h2).1
      have hlt : rank f.tgt < rank e.tgt := ReachesE_rank_lt _ _ hrank_edges hre hft
      have step1 : ReachesE (transRedCore g).edges u f.tgt :=
        ih f hf (hfs.trans hsrc) (by omega)
      have step2 : ReachesE (transRedCore g).edges f.tgt e.tgt := by
        refine houter f.tgt ?_ e.tgt hre
        rw [← hsrc, ← hfs]
        exact (hrank f hf).1
      exact ReachesE_trans _ _ _ _ step1 step2

theorem red_reach_aux (g : G) (rank : Nat → Nat) (hrank : RankOK g rank) :
    ∀ (M u : Nat), g.nodes.length + 1 - rank u ≤ M → ∀ v, ReachesE g.edges u v →
      ReachesE (transRedCore g).edges u v := by
  intro M
  induction M with
  | zero =>
    intro u hu v hr
    cases hr with
    | refl => exact ReachesE.refl _
    | step e he h2 =>
      have h3 := (hrank e he).1
      have h4 := (hrank e he).2
      omega
  | succ M ih =>
    intro u hu v hr
    cases hr with
    | refl => exact ReachesE.refl _
    | step e he h2 =>
      have h3 := (hrank e he).1
      have h4 := (hrank e he).2
      have htail : ReachesE (transRedCore g).edges e.tgt v := ih e.tgt (by omega) v h2
      have hedge : ReachesE (transRedCore g).edges e.src e.tgt := by
        refine red_edge_aux g rank hrank e.src ?_ g.nodes.length e he rfl h4
        intro u' hlt v' hr'
        exact ih u' (by omega) v' hr'
      exact ReachesE_trans _ _ _ _ hedge htail

/-- C6: the transitive-reduction pass preserves reachability.  For every
acyclic graph entering the pass (acyclicity witnessed by a rank function
that strictly increases along edges and is bounded by the node count) and
every node pair, reachability before the pass holds iff it holds after. -/
theorem c6_transitive_reduction_reachability (g g' : G) (rank : Nat → Nat)
    (hrank : RankOK g rank) (hred : transitive_reduction g = some g') :
    ∀ u v, ReachesE g.edges u v ↔ ReachesE g'.edges u v := by
  have hg' : g' = transRedCore g := by
    unfold transitive_reduction at hred
    split at hred
    · exact (Option.some.inj hred).symm
    · cases hred
  subst hg'
  intro u v
  constructor
  · intro h
    exact red_reach_aux g rank hrank (g.nodes.length + 1 - rank u) u (Nat.le_refl _) v h
  · intro h
    exact ReachesE_mono _ _ (fun e he => (List.mem_filter.mp he).1) h

/-- Witness for C6: on a three-node chain with a shortcut edge, the
reduction drops the shortcut and reachability from node 0 to node 2 is
preserved. -/
theorem c6_witness :
    ReachesE (G.mk [Feature.Root, Feature.External (0, none), Feature.External (1, none)]
      [⟨0, 1, rootLink⟩, ⟨1, 2, rootLink⟩, ⟨0, 2, rootLink⟩]).edges 0 2 ↔
    ReachesE (transRedCore (G.mk
      [Feature.Root, Feature.External (0, none), Feature.External (1, none)]
      [⟨0, 1, rootLink⟩, ⟨1, 2, rootLink⟩, ⟨0, 2, rootLink⟩])).edges 0 2 :=
  c6_transitive_reduction_reachability _ _ (fun i => i) (by unfold RankOK; decide) (by rfl) 0 2

/-! ## Builder monotonicity lemmas -/

theorem EdgeFidMono.refl' (fg : FeatGraph2) : EdgeFidMono fg fg :=
  ⟨⟨[], by simp⟩, fun _ _ h => h⟩

theorem EdgeFidMono.comp {a b c : FeatGraph2} (h1 : EdgeFidMono a b) (h2 : EdgeFidMono b c) :
    EdgeFidMono a c := by
  obtain ⟨⟨t1, he1⟩, hf1⟩ := h1
  obtain ⟨⟨t2, he2⟩, hf2⟩ := h2
  exact ⟨⟨t1 ++ t2, by rw [he2, he1, List.append_assoc]⟩, fun f n h => hf2 f n (hf1 f n h)⟩

theorem except_bind_ok {α β : Type} (x : Except String α) (f : α → Except String β) (b : β)
    (h : (x >>= f) = Except.ok b) : ∃ a, x = Except.ok a ∧ f a = Except.ok b := by
  cases x with
  | error e => simp [Bind.bind, Except.bind] at h
  | ok a => exact ⟨a, rfl, by simpa [Bind.bind, Except.bind] using h⟩

theorem fid_index_edges (fg : FeatGraph2) (f : Fid) :
    (fid_index fg f).1.edges = fg.edges := by
  unfold fid_index
  cases h : fg.fids.find? (fun p => p.1 == f) <;> simp [h]

theorem fid_index_members (fg : FeatGraph2) (f : Fid) :
    (fid_index fg f).1.workspace_members = fg.workspace_members := by
  unfold fid_index
  cases h : fg.fids.find? (fun p => p.1 == f) <;> simp [h]

theorem fid_index_renames (fg : FeatGraph2) (f : Fid) :
    (fid_index fg f).1.library_renames = fg.library_renames := by
  unfold fid_index
  cases h : fg.fids.find? (fun p => p.1 == f) <;> simp [h]

theorem fid_index_fids_mono (fg : FeatGraph2) (f f2 : Fid) (n : Nat)
    (h : fidLookup fg f2 = some n) : fidLookup (fid_index fg f).1 f2 = some n := by
  unfold fid_index
  cases hf : fg.fids.find? (fun p => p.1 == f) with
  | some p => simpa [hf] using h
  | none =>
    simp only [hf]
    unfold fidLookup at h ⊢
    simp only [List.find?_append]
    obtain ⟨q, hq, hq2⟩ := Option.map_eq_some'.mp h
    simp [hq, hq2]

theorem fid_index_self (fg : FeatGraph2) (f : Fid) :
    fidLookup (fid_index fg f).1 f = some (fid_index fg f).2 := by
  unfold fid_index fidLookup
  cases hf : fg.fids.find? (fun p => p.1 == f) with
  | some p => simp [hf]
  | none => simp [hf, List.find?_append]

theorem fid_index_mono (fg : FeatGraph2) (f : Fid) : EdgeFidMono fg (fid_index fg f).1 :=
  ⟨⟨[], by rw [fid_index_edges, List.append_nil]⟩, fun f2 n h => fid_index_fids_mono fg f f2 n h⟩

theorem appendEdge_mono (fg : FeatGraph2) (es : List Edge) :
    EdgeFidMono fg { fg with edges := fg.edges ++ es } :=
  ⟨⟨es, rfl⟩, fun _ _ h => h⟩

theorem addFeatEdges_mono (dep_pid : Nat) (link : Link) (link_source : Nat) :
    ∀ (feats : List String) (fg : FeatGraph2),
      EdgeFidMono fg (feats.foldl (fun fg feat =>
        let ft := fid_index fg (dep_pid, some feat)
        { ft.1 with edges := ft.1.edges ++ [⟨link_source, ft.2, link⟩] }) fg) := by
  intro feats
  induction feats with
  | nil => intro fg; exact EdgeFidMono.refl' fg
  | cons feat feats ih =>
    intro fg
    simp only [List.foldl_cons]
    refine EdgeFidMono.comp (EdgeFidMono.comp (fid_index_mono fg (dep_pid, some feat)) ?_) (ih _)
    exact appendEdge_mono _ _

theorem addResolvedDep_mono (meta : Metadata) (package : Package) (ix : Nat)
    (fg : FeatGraph2) (rd : NodeDep) (fg' : FeatGraph2)
    (h : addResolvedDep meta package ix fg rd = Except.ok fg') : EdgeFidMono fg fg' := by
  unfold addResolvedDep at h
  cases hsd : lookupSpecified package fg.library_renames rd with
  | error e => rw [hsd] at h; cases h
  | ok sd =>
    rw [hsd] at h
    cases hpid : pidOf meta rd.pkg with
    | none => rw [hpid] at h; cases h
    | some dep_pid =>
      rw [hpid] at h
      simp only at h
      have hfi : EdgeFidMono fg
          (if sd.optional = true then fid_index fg (ix, some rd.name)
           else fid_index fg (ix, none)).1 := by
        by_cases ho : sd.optional = true <;> simp [ho, fid_index_mono]
      split at h
      · rw [Except.ok.injEq] at h
        subst h
        exact EdgeFidMono.comp (EdgeFidMono.comp hfi (fid_index_mono _ _))
          (appendEdge_mono _ _)
      · rw [Except.ok.injEq] at h
        subst h
        exact EdgeFidMono.comp hfi (addFeatEdges_mono _ _ _ _ _)

theorem addLocalDep_mono (meta : Metadata) (package : Package) (rnode : RNode) (ix : Nat)
    (local_feat : String) (local_ix : Nat) (fg : FeatGraph2) (other : String)
    (fg' : FeatGraph2)
    (h : addLocalDep meta package rnode ix local_feat local_ix fg other = Except.ok fg') :
    EdgeFidMono fg fg' := by
  unfold addLocalDep at h
  cases hsp : splitOnce other with
  | none =>
    rw [hsp] at h
    simp only [Except.ok.injEq] at h
    subst h
    exact EdgeFidMono.comp (fid_index_mono _ _) (appendEdge_mono _ _)
  | some pr =>
    obtain ⟨other_name, other_feat⟩ := pr
    rw [hsp] at h
    cases hdd : find_dep_by_name package.dependencies other_name with
    | error e => simp [hdd] at h
    | ok dd =>
      simp only [hdd] at h
      cases hdr : rnode.deps.find? (fun d => name_cmp other_name d.name) with
      | none =>
        simp only [hdr, Except.ok.injEq] at h
        subst h
        exact EdgeFidMono.refl' fg
      | some dr =>
        simp only [hdr] at h
        cases hpid : pidOf meta dr.pkg with
        | none => simp [hpid] at h
        | some dep_pid =>
          simp only [hpid, Except.ok.injEq] at h
          subst h
          exact EdgeFidMono.comp (EdgeFidMono.comp (fid_index_mono _ _) (fid_index_mono _ _))
            (appendEdge_mono _ _)

theorem foldlM_mono {α : Type} (step : FeatGraph2 → α → Except String FeatGraph2)
    (hstep : ∀ fg a fg', step fg a = Except.ok fg' → EdgeFidMono fg fg') :
    ∀ (l : List α) (fg fg' : FeatGraph2), l.foldlM step fg = Except.ok fg' →
      EdgeFidMono fg fg' := by
  intro l
  induction l with
  | nil =>
    intro fg fg' h
    simp only [List.foldlM_nil] at h
    rw [show (pure fg : Except String FeatGraph2) = Except.ok fg from rfl,
      Except.ok.injEq] at h
    subst h
    exact EdgeFidMono.refl' fg
  | cons a l ih =>
    intro fg fg' h
    simp only [List.foldlM_cons] at h
    obtain ⟨mid, hmid, h⟩ := except_bind_ok _ _ _ h
    exact EdgeFidMono.comp (hstep fg a mid hmid) (ih mid fg' h)

theorem addLocalFeature_mono (meta : Metadata) (package : Package) (rnode : RNode)
    (ix base_ix : Nat) (fg : FeatGraph2) (pr : String × List String) (fg' : FeatGraph2)
    (h : addLocalFeature meta package rnode ix base_ix fg pr = Except.ok fg') :
    EdgeFidMono fg fg' := by
  unfold addLocalFeature at h
  simp only at h
  refine EdgeFidMono.comp (EdgeFidMono.comp (fid_index_mono fg (ix, some pr.1))
    (appendEdge_mono (fid_index fg (ix, some pr.1)).1
      [⟨(fid_index fg (ix, some pr.1)).2, base_ix, rootLink⟩])) ?_
  exact foldlM_mono _ (fun fg2 a fg2' h2 => addLocalDep_mono _ _ _ _ _ _ _ _ _ h2) _ _ _ h

/-- C7: for every workspace-member package processed by `add_package`, an
unconditional edge from the root (node 0) to the default-feature node is
added when the feature table declares `default`, and to the base node
otherwise; on the concrete member with features `a -> []`,
`default -> [a]` the graph contains
Root -> Fid(P, default) -> Fid(P, a) -> Fid(P, base) and no direct edge
from the root to the base node. -/
theorem c7_default_activation :
    (∀ (meta : Metadata) (fg : FeatGraph2) (ix : Nat) (package : Package) (rnode : RNode)
        (fg' : FeatGraph2),
      add_package meta fg ix package rnode = Except.ok fg' →
      fg.workspace_members.contains ix = true →
      ((package.features.find? (fun p => p.1 == "default")).isSome = true →
        ∃ j, fidLookup fg' (ix, some "default") = some j ∧ Edge.mk 0 j rootLink ∈ fg'.edges)
      ∧ ((package.features.find? (fun p => p.1 == "default")).isSome = false →
        ∃ j, fidLookup fg' (ix, none) = some j ∧ Edge.mk 0 j rootLink ∈ fg'.edges))
    ∧ (fidLookup fgC7 (0, some "default") = some 2
       ∧ fidLookup fgC7 (0, some "a") = some 3
       ∧ fidLookup fgC7 (0, none) = some 1
       ∧ Edge.mk 0 2 rootLink ∈ fgC7.edges
       ∧ Edge.mk 2 3 rootLink ∈ fgC7.edges
       ∧ Edge.mk 3 1 rootLink ∈ fgC7.edges
       ∧ fgC7.edges.all (fun e => !(e.src == 0 && e.tgt == 1)) = true) := by
  constructor
  · intro meta fg ix package rnode fg' h hws
    unfold add_package at h
    split at h
    · exact Except.noConfusion h
    · simp only [fid_index_members, hws, if_true] at h
      by_cases hdef : (package.features.find? (fun p => p.1 == "default")).isSome = true
      · constructor
        · intro _
          simp only [hdef, if_true] at h
          split at h
          · exact Except.noConfusion h
          · rename_i fg3 heq
            have m1 : EdgeFidMono _ fg3 :=
              foldlM_mono _ (fun a b c hh => addResolvedDep_mono _ _ _ _ _ _ hh) _ _ _ heq
            have m2 : EdgeFidMono fg3 fg' :=
              foldlM_mono _ (fun a b c hh => addLocalFeature_mono _ _ _ _ _ _ _ _ hh) _ _ _ h
            have m := EdgeFidMono.comp m1 m2
            refine ⟨(fid_index (fid_index fg (ix, none)).1 (ix, some "default")).2, ?_, ?_⟩
            · exact m.2 _ _ (fid_index_self _ _)
            · obtain ⟨tl, htl⟩ := m.1
              rw [htl]
              exact List.mem_append_left _
                (List.mem_append_right _ (List.mem_singleton.mpr rfl))
        · intro hdef2
          rw [hdef] at hdef2
          exact Bool.noConfusion hdef2
      · have hdefF : (package.features.find? (fun p => p.1 == "default")).isSome = false := by
          cases h2 : (package.features.find? (fun p => p.1 == "default")).isSome
          · rfl
          · exact absurd h2 hdef
        constructor
        · intro hdef2
          rw [hdef2] at hdefF
          exact Bool.noConfusion hdefF
        · intro _
          simp only [hdefF, Bool.false_eq_true, if_false] at h
          split at h
          · exact Except.noConfusion h
          · rename_i fg3 heq
            have m1 : EdgeFidMono _ fg3 :=
              foldlM_mono _ (fun a b c hh => addResolvedDep_mono _ _ _ _ _ _ hh) _ _ _ heq
            have m2 : EdgeFidMono fg3 fg' :=
              foldlM_mono _ (fun a b c hh => addLocalFeature_mono _ _ _ _ _ _ _ _ hh) _ _ _ h
            have m := EdgeFidMono.comp m1 m2
            refine ⟨(fid_index fg (ix, none)).2, ?_, ?_⟩
            · exact m.2 _ _ (fid_index_self _ _)
            · obtain ⟨tl, htl⟩ := m.1
              rw [htl]
              exact List.mem_append_left _
                (List.mem_append_right _ (List.mem_singleton.mpr rfl))
  · exact ⟨by rfl, by rfl, by rfl, by decide, by decide, by decide, by rfl⟩

/-- Witness for C7: the general statement applied to the concrete C7
snapshot, with the `add_package` run and membership discharged by
evaluation. -/
theorem c7_witness :
    ∃ j, fidLookup fgC7 (0, some "default") = some j ∧ Edge.mk 0 j rootLink ∈ fgC7.edges :=
  ((c7_default_activation.1 metaC7
      ⟨[0], [Feature.Root], [], [], []⟩ 0
      ⟨"P", "p", [("a", []), ("default", ["a"])], [], []⟩
      ⟨"P", []⟩ fgC7 (by rfl) (by rfl)).1) (by rfl)

/-- C8: for the snapshot family with a package `P` that has an optional
resolved dependency named `d` (no extra features requested, empty local
feature table, arbitrary resolved kind entries `ks`), the constructed
pre-optimization graph contains exactly one edge from the node of
Fid(P, Some d) (node 2) to the node of Fid(D, None) (node 3), and that
edge carries `optional = true` with the resolved kind entries. -/
theorem c8_optional_edge (ks : List DepKindInfo) :
    ∃ fg, buildGraph (metaC8 "d" ks) = Except.ok fg ∧
      fidLookup fg (0, some "d") = some 2 ∧
      fidLookup fg (1, none) = some 3 ∧
      fg.edges.filter (fun e => e.src == 2 && e.tgt == 3) = [⟨2, 3, ⟨true, ks⟩⟩] := by
  refine ⟨⟨[0], [Feature.Root, Feature.Workspace (0, none), Feature.Workspace (0, some "d"),
      Feature.External (1, none)],
      [⟨0, 1, rootLink⟩, ⟨2, 3, ⟨true, ks⟩⟩],
      [((0, none), 1), ((0, some "d"), 2), ((1, none), 3)], []⟩, ?_, ?_, ?_, ?_⟩
  · rfl
  · rfl
  · rfl
  · rfl

/-! ## TOML document lemmas -/

theorem getItem_insertEntry_self (es : List (String × TomlItem)) (k : String) (v : TomlItem) :
    getItem (insertEntry es k v) k = some v := by
  induction es with
  | nil => simp [insertEntry, getItem]
  | cons p rest ih =>
    obtain ⟨k2, v2⟩ := p
    by_cases hk : (k2 == k) = true
    · simp [insertEntry, hk, getItem]
    · have hkf : (k2 == k) = false := by simpa using hk
      simpa [insertEntry, hkf, getItem, List.find?_cons] using ih

theorem getItem_insertEntry_other (es : List (String × TomlItem)) (k k2 : String) (v : TomlItem)
    (h : k2 ≠ k) : getItem (insertEntry es k v) k2 = getItem es k2 := by
  induction es with
  | nil =>
    have : (k == k2) = false := by
      simp only [beq_eq_false_iff_ne, ne_eq]
      exact fun he => h he.symm
    simp [insertEntry, getItem, this]
  | cons p rest ih =>
    obtain ⟨k3, v3⟩ := p
    by_cases hk : (k3 == k) = true
    · have hkeq : k3 = k := by simpa using hk
      subst hkeq
      have h1 : (k3 == k2) = false := by
        simp only [beq_eq_false_iff_ne, ne_eq]
        exact fun he => h he.symm
      simp [insertEntry, getItem, List.find?_cons, h1]
    · have hkf : (k3 == k) = false := by simpa using hk
      by_cases h2 : (k3 == k2) = true
      · simp [insertEntry, hkf, getItem, List.find?_cons, h2]
      · have h2f : (k3 == k2) = false := by simpa using h2
        simpa [insertEntry, hkf, getItem, List.find?_cons, h2f] using ih

theorem mem_insertEntry (es : List (String × TomlItem)) (k : String) (v : TomlItem)
    (q : String × TomlItem) (hq : q ∈ insertEntry es k v) : q ∈ es ∨ q = (k, v) := by
  induction es with
  | nil =>
    simp only [insertEntry, List.mem_singleton] at hq
    exact Or.inr hq
  | cons r rs ihr =>
    obtain ⟨k4, v4⟩ := r
    by_cases h4 : (k4 == k) = true
    · simp only [insertEntry, h4, if_true] at hq
      rcases List.mem_cons.mp hq with rfl | hq2
      · exact Or.inr rfl
      · exact Or.inl (List.mem_cons_of_mem _ hq2)
    · have h4f : (k4 == k) = false := by simpa using h4
      simp only [insertEntry, h4f, Bool.false_eq_true, if_false] at hq
      rcases List.mem_cons.mp hq with rfl | hq2
      · exact Or.inl (List.mem_cons_self _ _)
      · rcases ihr hq2 with h5 | h5
        · exact Or.inl (List.mem_cons_of_mem _ h5)
        · exact Or.inr h5

theorem insertEntry_keys_nodup (es : List (String × TomlItem)) (k : String) (v : TomlItem)
    (h : (es.map Prod.fst).Nodup) : ((insertEntry es k v).map Prod.fst).Nodup := by
  induction es with
  | nil => simp [insertEntry]
  | cons p rest ih =>
    obtain ⟨k2, v2⟩ := p
    simp only [List.map_cons, List.nodup_cons] at h
    by_cases hk : (k2 == k) = true
    · have hkeq : k2 = k := by simpa using hk
      subst hkeq
      simp only [insertEntry, beq_self_eq_true, if_true, List.map_cons, List.nodup_cons]
      exact h
    · have hkf : (k2 == k) = false := by simpa using hk
      simp only [insertEntry, hkf, Bool.false_eq_true, if_false, List.map_cons,
        List.nodup_cons]
      constructor
      · intro hmem
        rcases List.mem_map.mp hmem with ⟨q, hq, hq2⟩
        rcases mem_insertEntry rest k v q hq with h5 | h5
        · exact h.1 (List.mem_map.mpr ⟨q, h5, hq2⟩)
        · subst h5
          simp only at hq2
          rw [hq2] at hkf
          simp at hkf
      · exact ih h.2

theorem insEntry_perm (e : String × TomlItem) (l : List (String × TomlItem)) :
    (insEntry e l).Perm (e :: l) := by
  induction l with
  | nil => exact List.Perm.refl _
  | cons x xs ih =>
    by_cases h : e.1 < x.1
    · simp [insEntry, h]
    · simp only [insEntry, h, if_false]
      exact (ih.cons x).trans (List.Perm.swap e x xs)

theorem sortEntries_perm (l : List (String × TomlItem)) : (sortEntries l).Perm l := by
  induction l with
  | nil => exact List.Perm.refl _
  | cons x xs ih =>
    exact (insEntry_perm x (sortEntries xs)).trans (ih.cons x)

theorem getItem_eq_some_of_mem_nodup (l : List (String × TomlItem)) (k : String) (v : TomlItem)
    (hnd : (l.map Prod.fst).Nodup) (hm : (k, v) ∈ l) : getItem l k = some v := by
  induction l with
  | nil => cases hm
  | cons p rest ih =>
    obtain ⟨k2, v2⟩ := p
    simp only [List.map_cons, List.nodup_cons] at hnd
    rcases List.mem_cons.mp hm with heq | hmem
    · rw [← heq]
      simp [getItem, List.find?_cons]
    · have hk2 : (k2 == k) = false := by
        simp only [beq_eq_false_iff_ne, ne_eq]
        intro he
        subst he
        exact hnd.1 (List.mem_map.mpr ⟨(k2, v), hmem, rfl⟩)
      simpa [getItem, List.find?_cons, hk2] using ih hnd.2 hmem

theorem getItem_none_iff (l : List (String × TomlItem)) (k : String) :
    getItem l k = none ↔ ∀ p ∈ l, (p.1 == k) = false := by
  unfold getItem
  rw [Option.map_eq_none', List.find?_eq_none]
  constructor
  · intro h p hp
    have := h p hp
    simpa using this
  · intro h p hp
    simp [h p hp]

theorem getItem_sortEntries (l : List (String × TomlItem)) (k : String)
    (hnd : (l.map Prod.fst).Nodup) : getItem (sortEntries l) k = getItem l k := by
  have hperm := sortEntries_perm l
  have hnd2 : ((sortEntries l).map Prod.fst).Nodup := (hperm.map Prod.fst).nodup_iff.mpr hnd
  cases hg : getItem l k with
  | none =>
    rw [getItem_none_iff] at hg ⊢
    intro p hp
    exact hg p (hperm.mem_iff.mp hp)
  | some v =>
    have hm : (k, v) ∈ l := by
      unfold getItem at hg
      obtain ⟨q, hq, hq2⟩ := Option.map_eq_some'.mp hg
      have hqk : q.1 = k := by simpa using List.find?_some hq
      have := List.mem_of_find?_eq_some hq
      rw [← hqk, ← hq2]
      exact this
    exact getItem_eq_some_of_mem_nodup _ _ _ hnd2 (hperm.mem_iff.mpr hm)

theorem itemAt_nil (path : List String) (h : path ≠ []) : itemAt [] path = none := by
  cases path with
  | nil => exact absurd rfl h
  | cons k rest => cases rest <;> rfl

theorem itemAt_cons_congr (es es' : List (String × TomlItem)) (k : String)
    (rest : List String) (h : getItem es' k = getItem es k) :
    itemAt es' (k :: rest) = itemAt es (k :: rest) := by
  cases rest with
  | nil => simpa [itemAt] using h
  | cons k2 r2 =>
    simp only [itemAt]
    rw [h]

theorem curDeps_depsTableOf (doc : List (String × TomlItem))
    (cur : List (String × TomlItem)) (h : curDeps doc = Except.ok cur) :
    depsTableOf doc = cur := by
  unfold curDeps at h
  unfold depsTableOf
  cases hg : getItem doc "dependencies" with
  | none =>
    rw [hg] at h
    exact Except.ok.inj h
  | some item =>
    rw [hg] at h
    cases item with
    | tableV t => exact Except.ok.inj h
    | boolV b => exact Except.noConfusion h
    | strV v => exact Except.noConfusion h
    | arrV a => exact Except.noConfusion h

theorem modifyTable_single (es : List (String × TomlItem)) (k : String)
    (f : List (String × TomlItem) → List (String × TomlItem))
    (es' : List (String × TomlItem)) (h : modifyTable es [k] f = Except.ok es') :
    ∃ t0, es' = insertEntry es k (TomlItem.tableV (f t0)) := by
  unfold modifyTable at h
  cases hg : getItem es k with
  | none =>
    rw [hg] at h
    simp only [modifyTable, Except.map] at h
    exact ⟨[], (Except.ok.inj h).symm⟩
  | some item =>
    rw [hg] at h
    cases item with
    | tableV t =>
      simp only [modifyTable, Except.map] at h
      exact ⟨t, (Except.ok.inj h).symm⟩
    | boolV b => exact Except.noConfusion h
    | strV v => exact Except.noConfusion h
    | arrV a => exact Except.noConfusion h

theorem modifyTable_frame (es : List (String × TomlItem)) (k : String) (rest : List String)
    (f : List (String × TomlItem) → List (String × TomlItem))
    (es' : List (String × TomlItem)) (h : modifyTable es (k :: rest) f = Except.ok es')
    (k2 : String) (hk : k2 ≠ k) : getItem es' k2 = getItem es k2 := by
  unfold modifyTable at h
  cases hg : getItem es k with
  | none =>
    simp only [hg] at h
    cases hsub : modifyTable [] rest f with
    | error e => rw [hsub] at h; exact Except.noConfusion h
    | ok sub =>
      rw [hsub] at h
      simp only [Except.map] at h
      rw [← Except.ok.inj h]
      exact getItem_insertEntry_other _ _ _ _ hk
  | some item =>
    rw [hg] at h
    cases item with
    | tableV t =>
      have h2 : Except.map (fun sub => insertEntry es k (TomlItem.tableV sub))
          (modifyTable t rest f) = Except.ok es' := h
      cases hsub : modifyTable t rest f with
      | error e => rw [hsub] at h2; exact Except.noConfusion h2
      | ok sub =>
        rw [hsub] at h2
        simp only [Except.map] at h2
        rw [← Except.ok.inj h2]
        exact getItem_insertEntry_other _ _ _ _ hk
    | boolV b => exact Except.noConfusion h
    | strV v => exact Except.noConfusion h
    | arrV a => exact Except.noConfusion h

theorem modifyTable_absent : ∀ (path : List String) (es : List (String × TomlItem))
    (f : List (String × TomlItem) → List (String × TomlItem))
    (es' : List (String × TomlItem)),
    modifyTable es path f = Except.ok es' → itemAt es path = none → path ≠ [] →
    getTable es' path = some (f []) := by
  intro path
  induction path with
  | nil => intro es f es' _ _ hne; exact absurd rfl hne
  | cons k rest ih =>
    intro es f es' h ha hne
    unfold modifyTable at h
    cases hg : getItem es k with
    | none =>
      simp only [hg] at h
      cases hsub : modifyTable [] rest f with
      | error e => rw [hsub] at h; exact Except.noConfusion h
      | ok sub =>
        rw [hsub] at h
        simp only [Except.map] at h
        rw [← Except.ok.inj h]
        cases rest with
        | nil =>
          have hsubeq : sub = f [] := by
            simp only [modifyTable] at hsub
            exact (Except.ok.inj hsub).symm
          unfold getTable
          rw [getItem_insertEntry_self]
          simp [getTable, hsubeq]
        | cons k2 r2 =>
          unfold getTable
          rw [getItem_insertEntry_self]
          exact ih [] f sub hsub (itemAt_nil _ (by simp)) (by simp)
    | some item =>
      cases item with
      | tableV t =>
        rw [hg] at h
        cases rest with
        | nil =>
          unfold itemAt at ha
          rw [hg] at ha
          exact Option.noConfusion ha
        | cons k2 r2 =>
          have ha2 : itemAt t (k2 :: r2) = none := by
            unfold itemAt at ha
            rw [hg] at ha
            exact ha
          have h2 : Except.map (fun sub => insertEntry es k (TomlItem.tableV sub))
              (modifyTable t (k2 :: r2) f) = Except.ok es' := h
          cases hsub : modifyTable t (k2 :: r2) f with
          | error e => rw [hsub] at h2; exact Except.noConfusion h2
          | ok sub =>
            rw [hsub] at h2
            simp only [Except.map] at h2
            rw [← Except.ok.inj h2]
            unfold getTable
            rw [getItem_insertEntry_self]
            exact ih t f sub hsub ha2 (by simp)
      | boolV b => rw [hg] at h; exact Except.noConfusion h
      | strV v => rw [hg] at h; exact Except.noConfusion h
      | arrV a => rw [hg] at h; exact Except.noConfusion h

/-- C9: `set_dependencies` refuses to run when the namespaced stash is
already present (it returns an error; the manifest write only happens on
the success path of the model).  When the stash is absent, a single-entry
patch writes the patched dependency entry (pinned version plus features)
into the top-level dependencies table and stashes the previous item — or
the `false` marker if none — under `package.metadata.hackerman.dependencies`. -/
theorem c9_set_dependencies :
    (∀ doc g patch, (itemAt doc stashPath).isSome = true →
      ∃ msg, set_dependencies doc g patch = Except.error msg)
    ∧ (∀ doc g pid name ver feats doc',
        (itemAt doc stashPath).isSome = false →
        lookupG g pid = some (name, ver) →
        ((depsTableOf doc).map Prod.fst).Nodup →
        set_dependencies doc g [(pid, feats)] = Except.ok doc' →
        (∃ dt, getItem doc' "dependencies" = some (TomlItem.tableV dt) ∧
          getItem dt name = some (depItem ver feats)) ∧
        getTable doc' stashPath =
          some [(name, (getItem (depsTableOf doc) name).getD (TomlItem.boolV false))]) := by
  constructor
  · intro doc g patch h
    refine ⟨"already contains changes, restore the original files before applying a new hack", ?_⟩
    simp [set_dependencies, h]
  · intro doc g pid name ver feats doc' hAbs hG hND h
    unfold set_dependencies at h
    simp only [hAbs, Bool.false_eq_true, if_false] at h
    cases hcur : curDeps doc with
    | error e => simp only [hcur] at h; exact Except.noConfusion h
    | ok cur =>
      simp only [hcur] at h
      have hres : resolvePatch g [(pid, feats)] = Except.ok [(name, ver, feats)] := by
        simp [resolvePatch, hG]
      simp only [hres] at h
      have happ : applyPatches cur [(name, ver, feats)] =
          (insertEntry cur name (depItem ver feats), [(name, getItem cur name)]) := by
        simp [applyPatches]
      simp only [happ] at h
      cases hm1 : modifyTable doc ["dependencies"]
          (fun _ => sortEntries (insertEntry cur name (depItem ver feats))) with
      | error e => simp only [hm1] at h; exact Except.noConfusion h
      | ok doc1 =>
        simp only [hm1] at h
        have hcurT : depsTableOf doc = cur := curDeps_depsTableOf doc cur hcur
        constructor
        · obtain ⟨t0, ht0⟩ := modifyTable_single doc "dependencies" _ doc1 hm1
          have hdoc1 : getItem doc1 "dependencies" =
              some (TomlItem.tableV (sortEntries (insertEntry cur name (depItem ver feats)))) := by
            rw [ht0]
            exact getItem_insertEntry_self _ _ _
          have hface : getItem doc' "dependencies" = getItem doc1 "dependencies" := by
            have h2 : modifyTable doc1 ("package" :: ["metadata", "hackerman", "dependencies"])
                (stashOf [(name, getItem cur name)]) = Except.ok doc' := h
            exact modifyTable_frame doc1 "package" _ _ doc' h2 "dependencies" (by decide)
          refine ⟨sortEntries (insertEntry cur name (depItem ver feats)), ?_, ?_⟩
          · rw [hface, hdoc1]
          · rw [getItem_sortEntries _ _ (insertEntry_keys_nodup _ _ _ (hcurT ▸ hND))]
            exact getItem_insertEntry_self _ _ _
        · have hAbs2 : itemAt doc stashPath = none := by
            cases hia : itemAt doc stashPath with
            | none => rfl
            | some it => rw [hia] at hAbs; exact Bool.noConfusion hAbs
          have hAbs3 : itemAt doc1 stashPath = itemAt doc stashPath := by
            unfold stashPath
            exact itemAt_cons_congr doc doc1 "package" _
              (modifyTable_frame doc "dependencies" [] _ doc1 hm1 "package" (by decide))
          have hAbs4 : itemAt doc1 stashPath = none := by rw [hAbs3, hAbs2]
          have hgt := modifyTable_absent stashPath doc1 _ doc' h hAbs4 (by simp [stashPath])
          rw [hgt]
          rw [hcurT]
          rfl

/-- Witness for C9: patching a manifest whose dependencies table holds
`serde = "1"` with pinned version `1.0.0` and feature `derive` writes the
new entry and stashes the previous item. -/
theorem c9_witness :
    (∃ dt, getItem [("dependencies",
        TomlItem.tableV [("serde", depItem "1.0.0" ["derive"])]),
        ("package", TomlItem.tableV [("metadata", TomlItem.tableV [("hackerman",
          TomlItem.tableV [("dependencies",
            TomlItem.tableV [("serde", TomlItem.strV "1")])])])])] "dependencies" =
          some (TomlItem.tableV dt) ∧
      getItem dt "serde" = some (depItem "1.0.0" ["derive"])) ∧
    getTable [("dependencies",
        TomlItem.tableV [("serde", depItem "1.0.0" ["derive"])]),
        ("package", TomlItem.tableV [("metadata", TomlItem.tableV [("hackerman",
          TomlItem.tableV [("dependencies",
            TomlItem.tableV [("serde", TomlItem.strV "1")])])])])] stashPath =
      some [("serde", (getItem (depsTableOf
        [("dependencies", TomlItem.tableV [("serde", TomlItem.strV "1")])])
          "serde").getD (TomlItem.boolV false))] :=
  c9_set_dependencies.2
    [("dependencies", TomlItem.tableV [("serde", TomlItem.strV "1")])]
    [("id1", ("serde", "1.0.0"))] "id1" "serde" "1.0.0" ["derive"] _
    (by rfl) (by rfl) (by decide) (by rfl)

end Hackerman
